import Mathlib

/-!
Verification development for the deep-copy / structural-equality engine of
ymzhao-utils (src/index.js).  JavaScript values are shallowly embedded with an
explicit heap: primitives are immediate, every composite value lives at an
address.  The three functions under study are

  * deepCopy   (strict type dispatch via mTypeof, no visited registry),
  * deepCopy1  (descriptor-based clone with a WeakMap visited registry),
  * isObjectEqual (deep comparison with an excluded-key list).

Recursion in the source is general (the input graph may be cyclic), so each
function takes an explicit fuel parameter; running out of fuel models
non-termination (deepCopyF returns none, deepCopy1F returns the distinguished
error "OutOfFuel").  Thrown TypeErrors of the JavaScript code are modelled as
the error "TypeError".
-/

/-- JavaScript primitive values (numbers are modelled as integers; the claims
under study do not involve float-specific behaviour). -/
inductive Prim where
  | str (s : String)
  | num (n : Int)
  | bool (b : Bool)
  | null
  | undefVal
deriving DecidableEq, Repr

/-- Heap addresses of composite values. -/
abbrev Addr := Nat

/-- A JavaScript value: a primitive, or a reference to a heap object. -/
inductive Val where
  | prim (p : Prim)
  | ref (a : Addr)
deriving DecidableEq, Repr

/-- A composite (heap-allocated) JavaScript object, classified the way
`mTypeof` classifies it.  `other` stands for objects outside the closed tag
set of the switch statements (e.g. DOM elements): they carry own properties
but hit the `default` arms. -/
inductive Obj where
  | arr (elems : List Val)
  | record (fields : List (String × Val))
  | date (t : Int)
  | regexp (s : String)
  | set (elems : List Val)
  | map (entries : List (Val × Val))
  | func (id : Nat)
  | other (fields : List (String × Val))
deriving DecidableEq, Repr

/-- The heap: an association list from addresses to objects. -/
abbrev Heap := List (Addr × Obj)

/-- Heap lookup (first binding wins). -/
def hlookup : Heap → Addr → Option Obj
  | [], _ => none
  | (b, o) :: t, a => if a = b then some o else hlookup t a

/-- Largest address bound in the heap (0 when empty). -/
def maxAddr : Heap → Nat
  | [] => 0
  | (a, _) :: t => max a (maxAddr t)

/-- Allocate a fresh object, returning the extended heap and the new address. -/
def allocA (h : Heap) (o : Obj) : Heap × Addr :=
  (h ++ [(maxAddr h + 1, o)], maxAddr h + 1)

/-- Overwrite the object stored at an address (identity if absent). -/
def hupdate (h : Heap) (a : Addr) (o : Obj) : Heap :=
  h.map (fun p => if p.1 = a then (a, o) else p)

/-- JavaScript strict equality `===` on model values: value equality on
primitives, address identity on references. -/
def jsEq : Val → Val → Bool
  | .prim p, .prim q => decide (p = q)
  | .ref a, .ref b => decide (a = b)
  | _, _ => false

/-- JavaScript truthiness of a value. -/
def jsTruthy : Val → Bool
  | .prim (.str s) => !(decide (s = ""))
  | .prim (.num n) => !(decide (n = 0))
  | .prim (.bool b) => b
  | .prim .null => false
  | .prim .undefVal => false
  | .ref _ => true

/-- The classification used by `mTypeof` (Object.prototype.toString tag,
lower-cased; Elements give "element").  Unclassified objects are represented by
the `other` constructor and get the tag "element" as a concrete instance of a
tag outside the closed set handled by the switch statements. -/
def typeofVal (h : Heap) : Val → String
  | .prim (.str _) => "string"
  | .prim (.num _) => "number"
  | .prim (.bool _) => "boolean"
  | .prim .null => "null"
  | .prim .undefVal => "undefined"
  | .ref a =>
    match hlookup h a with
    | some (.arr _) => "array"
    | some (.record _) => "object"
    | some (.date _) => "date"
    | some (.regexp _) => "regexp"
    | some (.set _) => "set"
    | some (.map _) => "map"
    | some (.func _) => "function"
    | some (.other _) => "element"
    | none => "undefined"

/-- The JavaScript `typeof` operator (used in deepCopy1's
`typeof obj[key] === "object"` test; note `typeof null === "object"`). -/
def typeofOp (h : Heap) : Val → String
  | .prim (.str _) => "string"
  | .prim (.num _) => "number"
  | .prim (.bool _) => "boolean"
  | .prim .null => "object"
  | .prim .undefVal => "undefined"
  | .ref a =>
    match hlookup h a with
    | some (.func _) => "function"
    | _ => "object"

/-- `Set.prototype.add`: append unless an element equal under `===`
(SameValueZero restricted to our value space) is already present. -/
def setAdd (l : List Val) (v : Val) : List Val :=
  if l.any (fun w => jsEq w v) then l else l ++ [v]

/-- `Map.prototype.set`: update the binding of an existing key in place,
otherwise append, preserving insertion order. -/
def mapSet : List (Val × Val) → Val → Val → List (Val × Val)
  | [], k, v => [(k, v)]
  | (k', v') :: rest, k, v =>
    if jsEq k k' then (k', v) :: rest else (k', v') :: mapSet rest k v

/-- Property assignment `o[k] = v` on a record: update an existing key in
place, otherwise append. -/
def recordSet : List (String × Val) → String → Val → List (String × Val)
  | [], k, v => [(k, v)]
  | (k', v') :: rest, k, v =>
    if k = k' then (k, v) :: rest else (k', v') :: recordSet rest k v

/-- Property read `o[k]` on a record; absent keys give `undefined`. -/
def recordGet : List (String × Val) → String → Val
  | [], _ => .prim .undefVal
  | (k', v) :: rest, k => if k = k' then v else recordGet rest k

/-! ### deepCopy (strict type dispatch, src/index.js lines 86-117)

The source switches on `mTypeof(val)`; there is no visited registry, so the
recursion is driven purely by the structure reachable from the argument.  The
helpers below thread the heap through element-wise cloning exactly as the
`val.map`, `reduce`, `forEach` and `for value add` loops of the source do. -/

/-- Element-wise cloning for `val.map(v => deepCopy(v))` (array case). -/
def copyListWith (f : Heap → Val → Option (Heap × Val)) :
    Heap → List Val → Option (Heap × List Val)
  | h, [] => some (h, [])
  | h, v :: vs => do
    let (h₁, v') ← f h v
    let (h₂, vs') ← copyListWith f h₁ vs
    pure (h₂, v' :: vs')

/-- Field-wise cloning for the record case
`Object.keys(val).reduce((prev, curr) => { prev[curr] = deepCopy(val[curr]); return prev }, {})`:
assignments onto the accumulator starting from the empty record. -/
def copyFieldsWith (f : Heap → Val → Option (Heap × Val)) :
    Heap → List (String × Val) → List (String × Val) →
    Option (Heap × List (String × Val))
  | h, acc, [] => some (h, acc)
  | h, acc, (k, v) :: rest => do
    let (h₁, v') ← f h v
    copyFieldsWith f h₁ (recordSet acc k v') rest

/-- Entry-wise cloning for the map case
`val.forEach((v, k) => tmpMap.set(k, deepCopy(v)))`: keys are not cloned. -/
def copyEntriesWith (f : Heap → Val → Option (Heap × Val)) :
    Heap → List (Val × Val) → List (Val × Val) →
    Option (Heap × List (Val × Val))
  | h, acc, [] => some (h, acc)
  | h, acc, (k, v) :: rest => do
    let (h₁, v') ← f h v
    copyEntriesWith f h₁ (mapSet acc k v') rest

/-- Element-wise cloning for the set case
`for (let v of val.values()) tmpSet.add(deepCopy(v))`. -/
def copySetWith (f : Heap → Val → Option (Heap × Val)) :
    Heap → List Val → List Val → Option (Heap × List Val)
  | h, acc, [] => some (h, acc)
  | h, acc, v :: rest => do
    let (h₁, v') ← f h v
    copySetWith f h₁ (setAdd acc v') rest

/-- `deepCopy` with fuel.  Mirrors the switch over `mTypeof(val)`: array,
object, map, set, regexp, date, then the shared fall-through
function/string/number/boolean/null/undefined/default arm returning `val`
unchanged.  `none` models fuel exhaustion (non-termination of the source). -/
def deepCopyF : Nat → Heap → Val → Option (Heap × Val)
  | 0, _, _ => none
  | n + 1, h, v =>
    match v with
    | .prim p => some (h, .prim p)
    | .ref a =>
      match hlookup h a with
      | some (.arr l) => do
        let (h₁, l') ← copyListWith (deepCopyF n) h l
        let (h₂, c) := allocA h₁ (.arr l')
        pure (h₂, .ref c)
      | some (.record fs) => do
        let (h₁, fs') ← copyFieldsWith (deepCopyF n) h [] fs
        let (h₂, c) := allocA h₁ (.record fs')
        pure (h₂, .ref c)
      | some (.map es) => do
        let (h₁, es') ← copyEntriesWith (deepCopyF n) h [] es
        let (h₂, c) := allocA h₁ (.map es')
        pure (h₂, .ref c)
      | some (.set l) => do
        let (h₁, l') ← copySetWith (deepCopyF n) h [] l
        let (h₂, c) := allocA h₁ (.set l')
        pure (h₂, .ref c)
      | some (.regexp s) =>
        let (h₁, c) := allocA h (.regexp s)
        some (h₁, .ref c)
      | some (.date t) =>
        let (h₁, c) := allocA h (.date t)
        some (h₁, .ref c)
      | some (.func _) => some (h, v)
      | some (.other _) => some (h, v)
      | none => some (h, v)

/-! ### deepCopy1 (descriptor-based clone, src/index.js lines 125-146)

The source takes a WeakMap `hash` defaulting to a fresh `new WeakMap()` on
every top-level call.  Steps: (1) `obj instanceof Date` / `instanceof RegExp`
short-circuits; (2) hash hit returns the registered clone; (3)
`Object.getOwnPropertyDescriptors(obj)` (throws TypeError on null/undefined),
`Object.create(proto, allDesc)` building a shallow copy, `hash.set(obj,
cloneObj)` (throws TypeError when `obj` is a primitive, since WeakMap keys must
be objects); (4) a loop over `Reflect.ownKeys(obj)` re-assigning each own key,
recursing when the current value is truthy and `typeof` "object". -/

/-- The visited registry: original address mapped to its clone's address. -/
abbrev Visited := List (Addr × Addr)

/-- WeakMap lookup. -/
def vlookup : Visited → Addr → Option Addr
  | [], _ => none
  | (b, c) :: t, a => if a = b then some c else vlookup t a

/-- `Reflect.ownKeys` of a model object.  Arrays expose their index keys plus
"length"; records and unclassified objects expose their field names; sets,
maps and dates keep their data in internal slots (no own keys); functions are
modelled with no relevant own keys. -/
def ownKeysOf : Obj → List String
  | .arr l => (List.range l.length).map (fun i => toString i) ++ ["length"]
  | .record fs => fs.map Prod.fst
  | .other fs => fs.map Prod.fst
  | .date _ => []
  | .regexp _ => []
  | .set _ => []
  | .map _ => []
  | .func _ => []

/-- Own-property read `obj[key]`. -/
def objGetOwn : Obj → String → Val
  | .arr l, k =>
    if k = "length" then .prim (.num l.length)
    else
      match k.toNat? with
      | some i => l.getD i (.prim .undefVal)
      | none => .prim .undefVal
  | .record fs, k => recordGet fs k
  | .other fs, k => recordGet fs k
  | _, _ => .prim .undefVal

/-- The shallow copy `Object.create(Object.getPrototypeOf(obj), allDesc)`:
a plain object carrying every own key with its current value. -/
def shallowFields (o : Obj) : List (String × Val) :=
  (ownKeysOf o).map (fun k => (k, objGetOwn o k))

/-- Assignment `cloneObj[key] = v` through the heap: the clone is always the
plain object built by `Object.create`. -/
def objSetField (o : Obj) (k : String) (v : Val) : Obj :=
  match o with
  | .record fs => .record (recordSet fs k v)
  | o => o

/-- Update the clone's field in the heap. -/
def setCloneField (h : Heap) (c : Addr) (k : String) (v : Val) : Heap :=
  match hlookup h c with
  | some o => hupdate h c (objSetField o k v)
  | none => h

/-- The read `obj[key]` performed by deepCopy1's loop, through the heap. -/
def readOwn (h : Heap) (a : Addr) (k : String) : Val :=
  match hlookup h a with
  | some o => objGetOwn o k
  | none => .prim .undefVal

/-- The `for (let key of Reflect.ownKeys(obj))` loop of deepCopy1: reads
`obj[key]` from the original at address `a`, recurses via `f` when the value
is truthy and of `typeof` "object", else copies it as-is; each result is
assigned onto the clone at address `c`. -/
def copy1KeysWith (f : Heap → Visited → Val → Except String (Heap × Visited × Val))
    (a c : Addr) :
    Heap → Visited → List String → Except String (Heap × Visited)
  | h, vis, [] => .ok (h, vis)
  | h, vis, k :: rest =>
    let ov := readOwn h a k
    if jsTruthy ov && decide (typeofOp h ov = "object") then do
      let (h₁, vis₁, v') ← f h vis ov
      copy1KeysWith f a c (setCloneField h₁ c k v') vis₁ rest
    else
      copy1KeysWith f a c (setCloneField h c k ov) vis rest

/-- `deepCopy1` with fuel.  The error "TypeError" models the TypeErrors thrown
on primitive inputs (`Object.getOwnPropertyDescriptors(null)` and
`hash.set(primitive, ...)`); "OutOfFuel" models exhausted fuel. -/
def deepCopy1F : Nat → Heap → Visited → Val → Except String (Heap × Visited × Val)
  | 0, _, _, _ => .error "OutOfFuel"
  | n + 1, h, vis, v =>
    match v with
    | .ref a =>
      match hlookup h a with
      | some (.date t) =>
        let (h₁, c) := allocA h (.date t)
        .ok (h₁, vis, .ref c)
      | some (.regexp s) =>
        let (h₁, c) := allocA h (.regexp s)
        .ok (h₁, vis, .ref c)
      | some o =>
        match vlookup vis a with
        | some c => .ok (h, vis, .ref c)
        | none =>
          let (h₁, c) := allocA h (.record (shallowFields o))
          let vis₁ := (a, c) :: vis
          do
            let (h₂, vis₂) ← copy1KeysWith (deepCopy1F n) a c h₁ vis₁ (ownKeysOf o)
            pure (h₂, vis₂, .ref c)
      | none => .error "TypeError"
    | .prim _ => .error "TypeError"

/-- The exported entry point `deepCopy1(obj)`: the default parameter
`hash = new WeakMap()` means every top-level call starts from an empty
visited registry. -/
def deepCopy1Run (n : Nat) (h : Heap) (v : Val) :
    Except String (Heap × Visited × Val) :=
  deepCopy1F n h [] v

/-! ### isObjectEqual (src/index.js lines 155-199) -/

/-- The `while (tmpVal1 && tmpVal2)` loop over the two entry iterators: each
step compares key and value with `!==` (strict reference identity) and stops
at the first mismatch or when either iterator is exhausted. -/
def entriesLoop : List (Val × Val) → List (Val × Val) → Bool
  | e₁ :: r₁, e₂ :: r₂ =>
    if !(jsEq e₁.1 e₂.1) || !(jsEq e₁.2 e₂.2) then false
    else entriesLoop r₁ r₂
  | _, _ => true

/-- `obj1.every((v, idx) => isObjectEqual(v, obj2[idx], excludes))` for the
array case: short-circuits on the first false; an out-of-range index reads
`undefined`. -/
def everyEqWith (f : Val → Val → Option Bool) : List Val → List Val → Option Bool
  | [], _ => some true
  | v :: vs, w :: ws => do
    let b ← f v w
    if b then everyEqWith f vs ws else some false
  | v :: vs, [] => do
    let b ← f v (.prim .undefVal)
    if b then everyEqWith f vs [] else some false

/-- `keys1.every(k => excludes.includes(k) || recursive comparison)` for the
record case, iterating the fields of `obj1` and reading `obj2[k]`. -/
def everyKeysWith (f : Val → Val → Option Bool) (ex : List String) :
    List (String × Val) → List (String × Val) → Option Bool
  | [], _ => some true
  | (k, v) :: rest, fs₂ =>
    if ex.contains k then everyKeysWith f ex rest fs₂
    else do
      let b ← f v (recordGet fs₂ k)
      if b then everyKeysWith f ex rest fs₂ else some false

/-- `isObjectEqual` with fuel.  First the two `mTypeof` tags are compared;
then the switch: array (length + element-wise recursion), object (key-set
cardinality + per-key recursion skipping excluded keys), string/number/boolean
(`===`), date (`getTime`), function (reference identity), map/set (size +
order-sensitive entry loop with `!==`), regexp (`toString`), and the shared
null/undefined/default arm returning true. -/
def isObjectEqualF : Nat → Heap → Val → Val → List String → Option Bool
  | 0, _, _, _, _ => none
  | n + 1, h, v₁, v₂, ex =>
    if typeofVal h v₁ = typeofVal h v₂ then
      match v₁, v₂ with
      | .prim (.str s₁), .prim (.str s₂) => some (decide (s₁ = s₂))
      | .prim (.num x), .prim (.num y) => some (decide (x = y))
      | .prim (.bool b₁), .prim (.bool b₂) => some (decide (b₁ = b₂))
      | .ref a, .ref b =>
        match hlookup h a, hlookup h b with
        | some (.arr l₁), some (.arr l₂) =>
          if l₁.length = l₂.length then
            everyEqWith (fun x y => isObjectEqualF n h x y ex) l₁ l₂
          else some false
        | some (.record fs₁), some (.record fs₂) =>
          if fs₁.length = fs₂.length then
            everyKeysWith (fun x y => isObjectEqualF n h x y ex) ex fs₁ fs₂
          else some false
        | some (.date t₁), some (.date t₂) => some (decide (t₁ = t₂))
        | some (.func _), some (.func _) => some (decide (a = b))
        | some (.map es₁), some (.map es₂) =>
          if es₁.length = es₂.length then some (entriesLoop es₁ es₂)
          else some false
        | some (.set l₁), some (.set l₂) =>
          if l₁.length = l₂.length then
            some (entriesLoop (l₁.map fun v => (v, v)) (l₂.map fun v => (v, v)))
          else some false
        | some (.regexp s₁), some (.regexp s₂) => some (decide (s₁ = s₂))
        | _, _ => some true
      | _, _ => some true
    else some false


/-- Heap extension: every defined address keeps its object. -/
def HExt (h h' : Heap) : Prop :=
  ∀ a o, hlookup h a = some o → hlookup h' a = some o

/-- Composite tags of the claim "clone versus equal round-trip": array,
record, date, regex, set, map. -/
def isComposite : Obj → Bool
  | .arr _ => true
  | .record _ => true
  | .date _ => true
  | .regexp _ => true
  | .set _ => true
  | .map _ => true
  | .func _ => false
  | .other _ => false

/-- A value is a primitive or a reference to a function: exactly the values
for which deepCopy's switch returns its argument unchanged by reference and
`===` comparison against the clone therefore succeeds. -/
def primOrFunc (h : Heap) : Val → Bool
  | .prim _ => true
  | .ref a =>
    match hlookup h a with
    | some (.func _) => true
    | _ => false

/-- No two elements of the list are `===`-equal (the representation invariant
of a JavaScript Set's element list). -/
def jsNodup : List Val → Bool
  | [] => true
  | v :: rest => !(rest.any (fun w => jsEq v w)) && jsNodup rest

/-- No duplicate keys (the representation invariant of a JavaScript object's
property list). -/
def keysNodup : List String → Bool
  | [] => true
  | k :: rest => !(rest.any (fun k' => decide (k = k'))) && keysNodup rest

/-- Fuel-indexed well-formedness used by the clone/equal round-trip theorem:
all reachable references are defined, records have duplicate-free keys,
arrays/records recurse into children, and every reachable set element and map
value is a primitive or a function reference (the values whose clones stay
`===`-equal to the originals, which the `!==` entry comparison of
isObjectEqual requires).  Map keys and set invariants also demand the
container representation invariants. -/
def goodF : Nat → Heap → Val → Bool
  | 0, _, _ => false
  | n + 1, h, v =>
    match v with
    | .prim _ => true
    | .ref a =>
      match hlookup h a with
      | some (.arr l) => l.all (fun w => goodF n h w)
      | some (.record fs) =>
        keysNodup (fs.map Prod.fst) && fs.all (fun p => goodF n h p.2)
      | some (.set l) => jsNodup l && l.all (fun w => primOrFunc h w)
      | some (.map es) =>
        jsNodup (es.map Prod.fst) && es.all (fun e => primOrFunc h e.2)
      | some (.date _) => true
      | some (.regexp _) => true
      | some (.func _) => true
      | some (.other _) => true
      | none => false

/-- Acyclicity of the graph reachable from a value: a finite derivation
exists exactly when no cycle is reachable (every reference must be defined).
`children` of an object are all values embedded in it. -/
def Obj.children : Obj → List Val
  | .arr l => l
  | .record fs => fs.map Prod.snd
  | .set l => l
  | .map es => es.map Prod.fst ++ es.map Prod.snd
  | .other fs => fs.map Prod.snd
  | .date _ => []
  | .regexp _ => []
  | .func _ => []

inductive Acyclic (h : Heap) : Val → Prop where
  | prim (p : Prim) : Acyclic h (.prim p)
  | ref (a : Addr) (o : Obj) (hl : hlookup h a = some o)
      (hch : ∀ w ∈ o.children, Acyclic h w) : Acyclic h (.ref a)

/-- The cyclic one-object heap of the spec's cycle test
`a = {}; a.self = a`. -/
def cycHeap : Heap := [(0, .record [("self", .ref 0)])]

/-- Two sets holding the same numbers in different insertion orders. -/
def hOrd : Heap :=
  [(0, .set [.prim (.num 1), .prim (.num 2)]),
   (1, .set [.prim (.num 2), .prim (.num 1)])]

/-- The two-record heap of the exclusion-list examples of the spec:
address 0 holds {key:1, val:2}, address 1 holds {key:99, val:2}, address 2
holds {key:1, val:3}. -/
def hC6 : Heap :=
  [(0, .record [("key", .prim (.num 1)), ("val", .prim (.num 2))]),
   (1, .record [("key", .prim (.num 99)), ("val", .prim (.num 2))]),
   (2, .record [("key", .prim (.num 1)), ("val", .prim (.num 3))])]

/-- Structurally equal but reference-distinct records {a:1} at addresses 0
and 1, wrapped in sets (addresses 2, 3) and in arrays (addresses 4, 5). -/
def hC8 : Heap :=
  [(0, .record [("a", .prim (.num 1))]),
   (1, .record [("a", .prim (.num 1))]),
   (2, .set [.ref 0]),
   (3, .set [.ref 1]),
   (4, .arr [.ref 0]),
   (5, .arr [.ref 1])]

/-- Records witnessing the asymmetry of the exclusion list: address 0 holds
{key:1, v:2}, address 1 holds {w:2, v:2}. -/
def hC9 : Heap :=
  [(0, .record [("key", .prim (.num 1)), ("v", .prim (.num 2))]),
   (1, .record [("w", .prim (.num 2)), ("v", .prim (.num 2))])]

/-- A set (address 1) containing a composite element, the record {a:1} at
address 0: the counterexample input of the clone/equal round-trip claim. -/
def hSetRec : Heap :=
  [(0, .record [("a", .prim (.num 1))]),
   (1, .set [.ref 0])]

/-- The element-wise trace of deepCopy over a record's fields: each value is
cloned in the heap produced by its predecessors. -/
inductive CloneSeqF (n : Nat) : Heap → List (String × Val) → List (String × Val) → Heap → Prop where
  | nil (h : Heap) : CloneSeqF n h [] [] h
  | cons {h h₁ h₂ : Heap} {k : String} {v v' : Val}
      {rest cl : List (String × Val)} :
      deepCopyF n h v = some (h₁, v') → CloneSeqF n h₁ rest cl h₂ →
      CloneSeqF n h ((k, v) :: rest) ((k, v') :: cl) h₂

/-! ### Basic heap lemmas -/

theorem hlookup_le_maxAddr {h : Heap} {a : Addr} {o : Obj}
    (hl : hlookup h a = some o) : a ≤ maxAddr h := by
  induction h with
  | nil => simp [hlookup] at hl
  | cons p t ih =>
    obtain ⟨b, ob⟩ := p
    by_cases hab : a = b
    · subst hab; simp [maxAddr, Nat.le_max_left]
    · simp [hlookup, hab] at hl
      exact le_trans (ih hl) (by simp [maxAddr, Nat.le_max_right])

theorem hlookup_append (h₁ h₂ : Heap) (a : Addr) :
    hlookup (h₁ ++ h₂) a = ((hlookup h₁ a).or (hlookup h₂ a)) := by
  induction h₁ with
  | nil => simp [hlookup]
  | cons p t ih =>
    obtain ⟨b, ob⟩ := p
    by_cases hab : a = b <;> simp [hlookup, hab, ih]

theorem hlookup_fresh (h : Heap) : hlookup h (maxAddr h + 1) = none := by
  cases hl : hlookup h (maxAddr h + 1) with
  | none => rfl
  | some o =>
    exact absurd (hlookup_le_maxAddr hl) (Nat.not_succ_le_self _)

theorem allocA_lookup_self (h : Heap) (o : Obj) :
    hlookup (allocA h o).1 (allocA h o).2 = some o := by
  simp [allocA, hlookup_append, hlookup_fresh, hlookup]

theorem allocA_lookup_preserve {h : Heap} {a : Addr} {o' : Obj}
    (hl : hlookup h a = some o') (o : Obj) :
    hlookup (allocA h o).1 a = some o' := by
  simp [allocA, hlookup_append, hl]

theorem allocA_fresh_ne {h : Heap} {a : Addr} {o' : Obj}
    (hl : hlookup h a = some o') (o : Obj) : (allocA h o).2 ≠ a := by
  show maxAddr h + 1 ≠ a
  exact ne_of_gt (Nat.lt_succ_of_le (hlookup_le_maxAddr hl))

theorem hupdate_lookup_ne : ∀ (h : Heap) (a c : Addr), a ≠ c → ∀ o : Obj,
    hlookup (hupdate h c o) a = hlookup h a := by
  intro h
  induction h with
  | nil => intro a c _ o; rfl
  | cons p t ih =>
    intro a c hne o
    obtain ⟨b, ob⟩ := p
    show hlookup ((if b = c then (c, o) else (b, ob)) :: hupdate t c o) a
        = hlookup ((b, ob) :: t) a
    by_cases hbc : b = c
    · subst hbc
      rw [if_pos rfl]
      show (if a = b then some o else hlookup (hupdate t b o) a)
          = (if a = b then some ob else hlookup t a)
      rw [if_neg hne, if_neg hne]
      exact ih a b hne o
    · rw [if_neg hbc]
      show (if a = b then some ob else hlookup (hupdate t c o) a)
          = (if a = b then some ob else hlookup t a)
      by_cases hab : a = b
      · rw [if_pos hab, if_pos hab]
      · rw [if_neg hab, if_neg hab]
        exact ih a c hne o

theorem HExt.refl (h : Heap) : HExt h h := fun _ _ hl => hl

theorem HExt.trans {h₁ h₂ h₃ : Heap} (e₁ : HExt h₁ h₂) (e₂ : HExt h₂ h₃) :
    HExt h₁ h₃ := fun a o hl => e₂ a o (e₁ a o hl)

theorem HExt.alloc (h : Heap) (o : Obj) : HExt h (allocA h o).1 :=
  fun _ _ hl => allocA_lookup_preserve hl o

theorem copyListWith_ext {f : Heap → Val → Option (Heap × Val)}
    (hf : ∀ h v h' v', f h v = some (h', v') → HExt h h') :
    ∀ l h h' l', copyListWith f h l = some (h', l') → HExt h h' := by
  intro l
  induction l with
  | nil =>
    intro h h' l' hc
    rw [copyListWith] at hc
    cases hc
    exact HExt.refl h
  | cons v vs ih =>
    intro h h' l' hc
    rw [copyListWith] at hc
    cases hfv : f h v with
    | none => rw [hfv] at hc; cases hc
    | some r =>
      obtain ⟨h₁, v'⟩ := r
      rw [hfv] at hc
      simp only [Option.bind_eq_bind, Option.some_bind] at hc
      cases hrest : copyListWith f h₁ vs with
      | none => rw [hrest] at hc; cases hc
      | some r₂ =>
        obtain ⟨h₂, vs'⟩ := r₂
        rw [hrest] at hc
        simp only [Option.pure_def, Option.some_bind, Option.some.injEq,
          Prod.mk.injEq] at hc
        obtain ⟨rfl, rfl⟩ := hc
        exact (hf h v h₁ v' hfv).trans (ih _ _ _ hrest)

theorem copyListWith_cons_inv {f : Heap → Val → Option (Heap × Val)}
    {h : Heap} {v : Val} {vs : List Val} {r : Heap × List Val} :
    copyListWith f h (v :: vs) = some r ↔
      ∃ h₁ v' h₂ vs', f h v = some (h₁, v') ∧
        copyListWith f h₁ vs = some (h₂, vs') ∧ r = (h₂, v' :: vs') := by
  rw [copyListWith]
  simp only [Option.bind_eq_bind, Option.bind_eq_some, Option.pure_def,
    Option.some.injEq, Prod.exists]
  constructor
  · rintro ⟨h₁, v', hfv, h₂, vs', hrest, hr⟩
    exact ⟨h₁, v', h₂, vs', hfv, hrest, hr.symm⟩
  · rintro ⟨h₁, v', h₂, vs', hfv, hrest, hr⟩
    exact ⟨h₁, v', hfv, h₂, vs', hrest, hr.symm⟩

theorem copyFieldsWith_cons_inv {f : Heap → Val → Option (Heap × Val)}
    {h : Heap} {k : String} {v : Val} {rest acc : List (String × Val)}
    {r : Heap × List (String × Val)} :
    copyFieldsWith f h acc ((k, v) :: rest) = some r ↔
      ∃ h₁ v', f h v = some (h₁, v') ∧
        copyFieldsWith f h₁ (recordSet acc k v') rest = some r := by
  rw [copyFieldsWith]
  simp only [Option.bind_eq_bind, Option.bind_eq_some, Prod.exists]

theorem copyEntriesWith_cons_inv {f : Heap → Val → Option (Heap × Val)}
    {h : Heap} {k v : Val} {rest acc : List (Val × Val)}
    {r : Heap × List (Val × Val)} :
    copyEntriesWith f h acc ((k, v) :: rest) = some r ↔
      ∃ h₁ v', f h v = some (h₁, v') ∧
        copyEntriesWith f h₁ (mapSet acc k v') rest = some r := by
  rw [copyEntriesWith]
  simp only [Option.bind_eq_bind, Option.bind_eq_some, Prod.exists]

theorem copySetWith_cons_inv {f : Heap → Val → Option (Heap × Val)}
    {h : Heap} {v : Val} {rest acc : List Val} {r : Heap × List Val} :
    copySetWith f h acc (v :: rest) = some r ↔
      ∃ h₁ v', f h v = some (h₁, v') ∧
        copySetWith f h₁ (setAdd acc v') rest = some r := by
  rw [copySetWith]
  simp only [Option.bind_eq_bind, Option.bind_eq_some, Prod.exists]

theorem copyFieldsWith_ext {f : Heap → Val → Option (Heap × Val)}
    (hf : ∀ h v h' v', f h v = some (h', v') → HExt h h') :
    ∀ fs acc h h' out, copyFieldsWith f h acc fs = some (h', out) → HExt h h' := by
  intro fs
  induction fs with
  | nil =>
    intro acc h h' out hc
    rw [copyFieldsWith] at hc
    cases hc
    exact HExt.refl h
  | cons p rest ih =>
    obtain ⟨k, v⟩ := p
    intro acc h h' out hc
    obtain ⟨h₁, v', hfv, hrest⟩ := copyFieldsWith_cons_inv.mp hc
    exact (hf h v h₁ v' hfv).trans (ih _ h₁ h' out hrest)

theorem copyEntriesWith_ext {f : Heap → Val → Option (Heap × Val)}
    (hf : ∀ h v h' v', f h v = some (h', v') → HExt h h') :
    ∀ es acc h h' out, copyEntriesWith f h acc es = some (h', out) → HExt h h' := by
  intro es
  induction es with
  | nil =>
    intro acc h h' out hc
    rw [copyEntriesWith] at hc
    cases hc
    exact HExt.refl h
  | cons p rest ih =>
    obtain ⟨k, v⟩ := p
    intro acc h h' out hc
    obtain ⟨h₁, v', hfv, hrest⟩ := copyEntriesWith_cons_inv.mp hc
    exact (hf h v h₁ v' hfv).trans (ih _ h₁ h' out hrest)

theorem copySetWith_ext {f : Heap → Val → Option (Heap × Val)}
    (hf : ∀ h v h' v', f h v = some (h', v') → HExt h h') :
    ∀ l acc h h' out, copySetWith f h acc l = some (h', out) → HExt h h' := by
  intro l
  induction l with
  | nil =>
    intro acc h h' out hc
    rw [copySetWith] at hc
    cases hc
    exact HExt.refl h
  | cons v rest ih =>
    intro acc h h' out hc
    obtain ⟨h₁, v', hfv, hrest⟩ := copySetWith_cons_inv.mp hc
    exact (hf h v h₁ v' hfv).trans (ih _ h₁ h' out hrest)

theorem deepCopyF_ext :
    ∀ n h v h' v', deepCopyF n h v = some (h', v') → HExt h h' := by
  intro n
  induction n with
  | zero => intro h v h' v' hc; rw [deepCopyF] at hc; cases hc
  | succ n ih =>
    intro h v h' v' hc
    match v with
    | .prim p =>
      rw [deepCopyF] at hc; cases hc; exact HExt.refl h
    | .ref a =>
      rw [deepCopyF] at hc
      cases hl : hlookup h a with
      | none => rw [hl] at hc; cases hc; exact HExt.refl h
      | some o =>
        rw [hl] at hc
        cases o with
        | arr l =>
          simp only [Option.bind_eq_bind, Option.bind_eq_some, Option.pure_def,
            Option.some.injEq, Prod.mk.injEq, Prod.exists] at hc
          obtain ⟨h₁, l', hcl, hr⟩ := hc
          refine (copyListWith_ext ih l h h₁ l' hcl).trans ?_
          rw [← hr.1]
          exact HExt.alloc h₁ _
        | record fs =>
          simp only [Option.bind_eq_bind, Option.bind_eq_some, Option.pure_def,
            Option.some.injEq, Prod.mk.injEq, Prod.exists] at hc
          obtain ⟨h₁, fs', hcf, hr⟩ := hc
          refine (copyFieldsWith_ext ih fs [] h h₁ fs' hcf).trans ?_
          rw [← hr.1]
          exact HExt.alloc h₁ _
        | map es =>
          simp only [Option.bind_eq_bind, Option.bind_eq_some, Option.pure_def,
            Option.some.injEq, Prod.mk.injEq, Prod.exists] at hc
          obtain ⟨h₁, es', hce, hr⟩ := hc
          refine (copyEntriesWith_ext ih es [] h h₁ es' hce).trans ?_
          rw [← hr.1]
          exact HExt.alloc h₁ _
        | set l =>
          simp only [Option.bind_eq_bind, Option.bind_eq_some, Option.pure_def,
            Option.some.injEq, Prod.mk.injEq, Prod.exists] at hc
          obtain ⟨h₁, l', hcs, hr⟩ := hc
          refine (copySetWith_ext ih l [] h h₁ l' hcs).trans ?_
          rw [← hr.1]
          exact HExt.alloc h₁ _
        | regexp s => cases hc; exact HExt.alloc h _
        | date t => cases hc; exact HExt.alloc h _
        | func i => cases hc; exact HExt.refl h
        | other fs => cases hc; exact HExt.refl h

/-! ### deepCopy1 only extends the heap -/

theorem exceptBind_ok {e a b : Type} (x : a) (f : a → Except e b) :
    (Except.ok x >>= f : Except e b) = f x := rfl

theorem HExt.update_of_not_mem {h h' : Heap} {c : Addr}
    (e : HExt h h') (hc : hlookup h c = none) (o : Obj) :
    HExt h (hupdate h' c o) := by
  intro a o' hl
  have hne : a ≠ c := fun hac => by rw [hac] at hl; rw [hl] at hc; cases hc
  rw [hupdate_lookup_ne h' a c hne]
  exact e a o' hl

theorem setCloneField_ext {h h' : Heap} {c : Addr}
    (e : HExt h h') (hc : hlookup h c = none) (k : String) (v : Val) :
    HExt h (setCloneField h' c k v) := by
  unfold setCloneField
  cases hlookup h' c with
  | none => exact e
  | some o => exact e.update_of_not_mem hc _

/-- The loop of deepCopy1 only allocates fresh objects and mutates the clone
at `c`; every address defined in a heap `g` that predates the clone keeps its
object. -/
theorem copy1KeysWith_ext
    {f : Heap → Visited → Val → Except String (Heap × Visited × Val)}
    (hf : ∀ h vis v h' vis' v', f h vis v = .ok (h', vis', v') → HExt h h')
    {a c : Addr} :
    ∀ keys h vis h' vis', copy1KeysWith f a c h vis keys = .ok (h', vis') →
      ∀ g, HExt g h → hlookup g c = none → HExt g h' := by
  intro keys
  induction keys with
  | nil =>
    intro h vis h' vis' hc g hg hgc
    rw [copy1KeysWith] at hc
    cases hc
    exact hg
  | cons k rest ih =>
    intro h vis h' vis' hc g hg hgc
    rw [copy1KeysWith] at hc
    by_cases hcond : (jsTruthy (readOwn h a k)
        && decide (typeofOp h (readOwn h a k) = "object")) = true
    · rw [if_pos hcond] at hc
      cases hfv : f h vis (readOwn h a k) with
      | error e => rw [hfv] at hc; cases hc
      | ok r =>
        obtain ⟨h₁, vis₁, v'⟩ := r
        rw [hfv] at hc
        simp only [exceptBind_ok] at hc
        exact ih _ _ _ _ hc g
          (setCloneField_ext (hg.trans (hf _ _ _ _ _ _ hfv)) hgc k v') hgc
    · rw [if_neg hcond] at hc
      exact ih _ _ _ _ hc g (setCloneField_ext hg hgc k _) hgc

theorem deepCopy1F_ext :
    ∀ n h vis v h' vis' v', deepCopy1F n h vis v = .ok (h', vis', v') →
      HExt h h' := by
  intro n
  induction n with
  | zero => intro h vis v h' vis' v' hc; rw [deepCopy1F] at hc; cases hc
  | succ n ih =>
    intro h vis v h' vis' v' hc
    match v with
    | .prim p => rw [deepCopy1F] at hc; cases hc
    | .ref a =>
      rw [deepCopy1F] at hc
      cases hl : hlookup h a with
      | none => rw [hl] at hc; cases hc
      | some o =>
        rw [hl] at hc
        cases o with
        | date t => simp only at hc; cases hc; exact HExt.alloc h _
        | regexp s => simp only at hc; cases hc; exact HExt.alloc h _
        | arr l =>
          cases hv : vlookup vis a with
          | some c => rw [hv] at hc; cases hc; exact HExt.refl h
          | none =>
            rw [hv] at hc
            simp only at hc
            cases hloop : copy1KeysWith (deepCopy1F n) a
                (allocA h (.record (shallowFields (.arr l)))).2
                (allocA h (.record (shallowFields (.arr l)))).1
                ((a, (allocA h (.record (shallowFields (.arr l)))).2) :: vis)
                (ownKeysOf (.arr l)) with
            | error e => rw [hloop] at hc; cases hc
            | ok r =>
              obtain ⟨h₂, vis₂⟩ := r
              rw [hloop] at hc
              simp only [exceptBind_ok] at hc
              cases hc
              exact copy1KeysWith_ext ih _ _ _ _ _ hloop h
                (HExt.alloc h _) (hlookup_fresh h)
        | record fs =>
          cases hv : vlookup vis a with
          | some c => rw [hv] at hc; cases hc; exact HExt.refl h
          | none =>
            rw [hv] at hc
            simp only at hc
            cases hloop : copy1KeysWith (deepCopy1F n) a
                (allocA h (.record (shallowFields (.record fs)))).2
                (allocA h (.record (shallowFields (.record fs)))).1
                ((a, (allocA h (.record (shallowFields (.record fs)))).2) :: vis)
                (ownKeysOf (.record fs)) with
            | error e => rw [hloop] at hc; cases hc
            | ok r =>
              obtain ⟨h₂, vis₂⟩ := r
              rw [hloop] at hc
              simp only [exceptBind_ok] at hc
              cases hc
              exact copy1KeysWith_ext ih _ _ _ _ _ hloop h
                (HExt.alloc h _) (hlookup_fresh h)
        | set l =>
          cases hv : vlookup vis a with
          | some c => rw [hv] at hc; cases hc; exact HExt.refl h
          | none =>
            rw [hv] at hc
            simp only at hc
            cases hloop : copy1KeysWith (deepCopy1F n) a
                (allocA h (.record (shallowFields (.set l)))).2
                (allocA h (.record (shallowFields (.set l)))).1
                ((a, (allocA h (.record (shallowFields (.set l)))).2) :: vis)
                (ownKeysOf (.set l)) with
            | error e => rw [hloop] at hc; cases hc
            | ok r =>
              obtain ⟨h₂, vis₂⟩ := r
              rw [hloop] at hc
              simp only [exceptBind_ok] at hc
              cases hc
              exact copy1KeysWith_ext ih _ _ _ _ _ hloop h
                (HExt.alloc h _) (hlookup_fresh h)
        | map es =>
          cases hv : vlookup vis a with
          | some c => rw [hv] at hc; cases hc; exact HExt.refl h
          | none =>
            rw [hv] at hc
            simp only at hc
            cases hloop : copy1KeysWith (deepCopy1F n) a
                (allocA h (.record (shallowFields (.map es)))).2
                (allocA h (.record (shallowFields (.map es)))).1
                ((a, (allocA h (.record (shallowFields (.map es)))).2) :: vis)
                (ownKeysOf (.map es)) with
            | error e => rw [hloop] at hc; cases hc
            | ok r =>
              obtain ⟨h₂, vis₂⟩ := r
              rw [hloop] at hc
              simp only [exceptBind_ok] at hc
              cases hc
              exact copy1KeysWith_ext ih _ _ _ _ _ hloop h
                (HExt.alloc h _) (hlookup_fresh h)
        | func i =>
          cases hv : vlookup vis a with
          | some c => rw [hv] at hc; cases hc; exact HExt.refl h
          | none =>
            rw [hv] at hc
            simp only at hc
            cases hloop : copy1KeysWith (deepCopy1F n) a
                (allocA h (.record (shallowFields (.func i)))).2
                (allocA h (.record (shallowFields (.func i)))).1
                ((a, (allocA h (.record (shallowFields (.func i)))).2) :: vis)
                (ownKeysOf (.func i)) with
            | error e => rw [hloop] at hc; cases hc
            | ok r =>
              obtain ⟨h₂, vis₂⟩ := r
              rw [hloop] at hc
              simp only [exceptBind_ok] at hc
              cases hc
              exact copy1KeysWith_ext ih _ _ _ _ _ hloop h
                (HExt.alloc h _) (hlookup_fresh h)
        | other fs =>
          cases hv : vlookup vis a with
          | some c => rw [hv] at hc; cases hc; exact HExt.refl h
          | none =>
            rw [hv] at hc
            simp only at hc
            cases hloop : copy1KeysWith (deepCopy1F n) a
                (allocA h (.record (shallowFields (.other fs)))).2
                (allocA h (.record (shallowFields (.other fs)))).1
                ((a, (allocA h (.record (shallowFields (.other fs)))).2) :: vis)
                (ownKeysOf (.other fs)) with
            | error e => rw [hloop] at hc; cases hc
            | ok r =>
              obtain ⟨h₂, vis₂⟩ := r
              rw [hloop] at hc
              simp only [exceptBind_ok] at hc
              cases hc
              exact copy1KeysWith_ext ih _ _ _ _ _ hloop h
                (HExt.alloc h _) (hlookup_fresh h)

/-! ### Cyclic input: the strict-dispatch deepCopy never terminates -/

/-- On the self-referential record `a.self = a`, deepCopy recurses into the
`self` property with no visited registry, so no amount of fuel suffices. -/
theorem deepCopyF_cyc_none : ∀ n, deepCopyF n cycHeap (.ref 0) = none := by
  intro n
  induction n with
  | zero => rfl
  | succ n ih =>
    have ih' : deepCopyF n [(0, Obj.record [("self", Val.ref 0)])] (.ref 0)
        = none := ih
    simp [deepCopyF, copyFieldsWith.eq_def, cycHeap, hlookup, ih']

/-- C1, counterexample.  The claim asserts cycle preservation for both clone
variants; the strict type-dispatch variant `deepCopy` maintains no visited
registry, so on the self-referential record `a.self = a` it never returns at
all (stack overflow in JavaScript): no fuel yields a result, hence in
particular no clone whose `self` field is the clone itself. -/
theorem C1_strict_dispatch_cycle_cex :
    ¬ ∃ n h' v', deepCopyF n cycHeap (.ref 0) = some (h', v') := by
  rintro ⟨n, h', v', hc⟩
  rw [deepCopyF_cyc_none n] at hc
  cases hc

/-- C1, amended.  Cycle preservation holds for the descriptor-based variant
`deepCopy1`: it registers the clone shell in the WeakMap before recursing, so
cloning `a = \x7b\x7d; a.self = a` yields a fresh record (address 1) whose `self`
field is the clone itself. -/
theorem C1_cycle_preservation_descriptor :
    deepCopy1F 2 cycHeap [] (.ref 0) =
      .ok (cycHeap ++ [(1, .record [("self", .ref 1)])], [(0, 1)], .ref 1)
    ∧ hlookup (cycHeap ++ [(1, .record [("self", .ref 1)])]) 1 =
      some (.record [("self", .ref 1)]) := by
  constructor <;> rfl

/-! ### deepCopy1 throws on primitives -/

/-- C3, counterexample.  The claim asserts that clone never throws for any
classified tag including undefined, for both variants; but
`deepCopy1(undefined)` reaches `Object.getOwnPropertyDescriptors(undefined)`
which throws a TypeError. -/
theorem C3_primitive_throws_cex :
    deepCopy1F 3 [] [] (.prim .undefVal) = .error "TypeError" := rfl

/-- C4, counterexample.  The claim asserts `clone(p) === p` for every
primitive for both variants; but `deepCopy1(null)` throws a TypeError
(`Object.getOwnPropertyDescriptors(null)` cannot coerce null), so it does not
return null. -/
theorem C4_deepCopy1_null_cex :
    deepCopy1F 1 [] [] (.prim .null) = .error "TypeError" := rfl

/-- C4, amended.  Identity on primitives holds for the strict-dispatch
variant: `deepCopy` returns every primitive as-is (same value, untouched
heap).  The descriptor-based `deepCopy1` instead throws a TypeError on every
primitive input (null/undefined fail property-descriptor enumeration, other
primitives are invalid WeakMap keys). -/
theorem C4_primitive_identity_amended :
    (∀ n (h : Heap) (p : Prim), deepCopyF (n + 1) h (.prim p) = some (h, .prim p))
    ∧ (∀ n (h : Heap) (p : Prim),
        deepCopy1F (n + 1) h [] (.prim p) = .error "TypeError") := by
  constructor
  · intro n h p
    rw [deepCopyF]
  · intro n h p
    rw [deepCopy1F]

/-! ### Structural-equality facts on concrete inputs -/

/-- C8.  Set/map entries are compared with `!==` (strict reference identity),
not recursively: two sets holding structurally equal but reference-distinct
records compare unequal, while the same records wrapped in arrays (whose
comparison recurses) compare equal. -/
theorem C8_entry_reference_identity :
    isObjectEqualF 3 hC8 (.ref 2) (.ref 3) ["key"] = some false
    ∧ isObjectEqualF 3 hC8 (.ref 4) (.ref 5) ["key"] = some true := by
  constructor <;> rfl

/-- C9.  The exclusion list is applied only to the keys of the first
argument, so equality is not symmetric: with excludes = ["key"],
`equal(\x7bkey:1, v:2\x7d, \x7bw:2, v:2\x7d)` is true (the sole differing key of the
first record is excluded, `v` matches) while the flipped comparison inspects
the key `w`, reads `undefined` from the other record, and returns false. -/
theorem C9_exclusion_asymmetry :
    isObjectEqualF 2 hC9 (.ref 0) (.ref 1) ["key"] = some true
    ∧ isObjectEqualF 2 hC9 (.ref 1) (.ref 0) ["key"] = some false := by
  constructor <;> rfl

/-- C6.  Keys named in the exclusion list are treated as matching without
inspection (`equal(\x7bkey:1,val:2\x7d, \x7bkey:99,val:2\x7d, ["key"]) = true`), a
difference in a non-excluded key still falsifies equality
(`equal(\x7bkey:1,val:2\x7d, \x7bkey:1,val:3\x7d, ["key"]) = false`), and records
must have the same key-set cardinality. -/
theorem C6_exclusion_list :
    isObjectEqualF 2 hC6 (.ref 0) (.ref 1) ["key"] = some true
    ∧ isObjectEqualF 2 hC6 (.ref 0) (.ref 2) ["key"] = some false
    ∧ (∀ n h a b fs₁ fs₂ ex, hlookup h a = some (.record fs₁) →
        hlookup h b = some (.record fs₂) → fs₁.length ≠ fs₂.length →
        isObjectEqualF (n + 1) h (.ref a) (.ref b) ex = some false) := by
  refine ⟨rfl, rfl, ?_⟩
  intro n h a b fs₁ fs₂ ex ha hb hlen
  rw [isObjectEqualF]
  have ht : typeofVal h (.ref a) = typeofVal h (.ref b) := by
    simp [typeofVal, ha, hb]
  rw [if_pos ht, ha, hb]
  exact if_neg hlen

/-- C6, witness for the cardinality clause: records with one and zero keys
compare unequal. -/
theorem C6_exclusion_list_witness :
    isObjectEqualF 1 [(0, .record [("x", .prim (.num 1))]), (1, .record [])]
      (.ref 0) (.ref 1) ["key"] = some false :=
  C6_exclusion_list.2.2 0 _ 0 1 _ _ ["key"] rfl rfl (by decide)

/-! ### C5: characterisation of set/map equality -/

theorem entriesLoop_iff : ∀ l₁ l₂ : List (Val × Val), l₁.length = l₂.length →
    (entriesLoop l₁ l₂ = true ↔
      List.Forall₂ (fun e₁ e₂ : Val × Val =>
        jsEq e₁.1 e₂.1 = true ∧ jsEq e₁.2 e₂.2 = true) l₁ l₂) := by
  intro l₁
  induction l₁ with
  | nil =>
    intro l₂ hlen
    cases l₂ with
    | nil => simp [entriesLoop]
    | cons e r => simp at hlen
  | cons e₁ r₁ ih =>
    intro l₂ hlen
    cases l₂ with
    | nil => simp at hlen
    | cons e₂ r₂ =>
      rw [entriesLoop]
      by_cases hk : jsEq e₁.1 e₂.1 = true
      · by_cases hv : jsEq e₁.2 e₂.2 = true
        · rw [if_neg (by simp [hk, hv])]
          simp only [List.forall₂_cons]
          rw [ih r₂ (by simpa using hlen)]
          simp [hk, hv]
        · rw [if_pos (by simp [hv])]
          simp [List.forall₂_cons, hv]
      · rw [if_pos (by simp [hk])]
        simp [List.forall₂_cons, hk]

/-- C5.  On two maps (resp. two sets), isObjectEqual returns true iff the
sizes agree and iterating both in insertion order yields entries whose keys
and values are pairwise `===`-equal; and the comparison is order-sensitive:
the two sets of `hOrd`, which hold the same numbers in different insertion
orders, compare unequal. -/
theorem C5_setmap_equality :
    (∀ n h a b es₁ es₂ ex, hlookup h a = some (.map es₁) →
      hlookup h b = some (.map es₂) →
      (isObjectEqualF (n + 1) h (.ref a) (.ref b) ex = some true ↔
        List.Forall₂ (fun e₁ e₂ : Val × Val =>
          jsEq e₁.1 e₂.1 = true ∧ jsEq e₁.2 e₂.2 = true) es₁ es₂))
    ∧ (∀ n h a b l₁ l₂ ex, hlookup h a = some (.set l₁) →
      hlookup h b = some (.set l₂) →
      (isObjectEqualF (n + 1) h (.ref a) (.ref b) ex = some true ↔
        List.Forall₂ (fun x y : Val => jsEq x y = true) l₁ l₂))
    ∧ isObjectEqualF 1 hOrd (.ref 0) (.ref 1) [] = some false := by
  refine ⟨?_, ?_, rfl⟩
  · intro n h a b es₁ es₂ ex ha hb
    rw [isObjectEqualF]
    have ht : typeofVal h (.ref a) = typeofVal h (.ref b) := by
      simp [typeofVal, ha, hb]
    rw [if_pos ht, ha, hb]
    change (if es₁.length = es₂.length then some (entriesLoop es₁ es₂)
        else (some false : Option Bool)) = some true ↔ _
    by_cases hlen : es₁.length = es₂.length
    · rw [if_pos hlen]
      simp only [Option.some.injEq]
      exact entriesLoop_iff es₁ es₂ hlen
    · rw [if_neg hlen]
      constructor
      · intro hfalse; cases hfalse
      · intro hf; exact absurd hf.length_eq hlen
  · intro n h a b l₁ l₂ ex ha hb
    rw [isObjectEqualF]
    have ht : typeofVal h (.ref a) = typeofVal h (.ref b) := by
      simp [typeofVal, ha, hb]
    rw [if_pos ht, ha, hb]
    change (if l₁.length = l₂.length then
        some (entriesLoop (l₁.map fun v => (v, v)) (l₂.map fun v => (v, v)))
        else (some false : Option Bool)) = some true ↔ _
    by_cases hlen : l₁.length = l₂.length
    · rw [if_pos hlen]
      simp only [Option.some.injEq]
      rw [entriesLoop_iff _ _ (by simpa using hlen)]
      rw [List.forall₂_map_right_iff, List.forall₂_map_left_iff]
      simp [and_self]
    · rw [if_neg hlen]
      constructor
      · intro hfalse; cases hfalse
      · intro hf; exact absurd hf.length_eq hlen

/-- C5, witness: two one-element sets holding the same number compare equal,
via the set clause of the characterisation. -/
theorem C5_setmap_equality_witness :
    isObjectEqualF 1 [(0, .set [.prim (.num 7)]), (1, .set [.prim (.num 7)])]
      (.ref 0) (.ref 1) [] = some true :=
  (C5_setmap_equality.2.1 0
      [(0, .set [.prim (.num 7)]), (1, .set [.prim (.num 7)])] 0 1
      [.prim (.num 7)] [.prim (.num 7)] [] rfl rfl).mpr
    (List.Forall₂.cons (by decide) List.Forall₂.nil)

/-! ### C7: cloning never mutates the input graph -/

/-- C7.  Both clone variants leave every address of the input heap bound to
its original object: their only heap effect is allocating (and populating)
fresh clone addresses.  The second clause is stated for the exported entry
point, whose default parameter `hash = new WeakMap()` starts every top-level
call from a fresh, empty visited registry that cannot persist across calls. -/
theorem C7_no_mutation :
    (∀ n h v h' v', deepCopyF n h v = some (h', v') →
      ∀ a o, hlookup h a = some o → hlookup h' a = some o)
    ∧ (∀ n h v h' vis' v', deepCopy1Run n h v = .ok (h', vis', v') →
      ∀ a o, hlookup h a = some o → hlookup h' a = some o) := by
  constructor
  · intro n h v h' v' hc
    exact deepCopyF_ext n h v h' v' hc
  · intro n h v h' vis' v' hc
    exact deepCopy1F_ext n h [] v h' vis' v' hc

/-- C7, witness: cloning the one-field record at address 0 with either
variant leaves address 0 bound to its original record. -/
theorem C7_no_mutation_witness :
    hlookup [(0, Obj.record [("x", Val.prim (.num 1))]),
      (1, Obj.record [("x", Val.prim (.num 1))])] 0 =
      some (.record [("x", .prim (.num 1))])
    ∧ hlookup [(0, Obj.record [("x", Val.prim (.num 1))]),
      (1, Obj.record [("x", Val.prim (.num 1))])] 0 =
      some (.record [("x", .prim (.num 1))]) :=
  ⟨C7_no_mutation.1 2 [(0, .record [("x", .prim (.num 1))])] (.ref 0)
      [(0, .record [("x", .prim (.num 1))]), (1, .record [("x", .prim (.num 1))])]
      (.ref 1) rfl 0 (.record [("x", .prim (.num 1))]) rfl,
   C7_no_mutation.2 3 [(0, .record [("x", .prim (.num 1))])] (.ref 0)
      [(0, .record [("x", .prim (.num 1))]), (1, .record [("x", .prim (.num 1))])]
      [(0, 1)] (.ref 1) rfl 0 (.record [("x", .prim (.num 1))]) rfl⟩

/-! ### Fuel monotonicity -/

theorem copyListWith_congr {f g : Heap → Val → Option (Heap × Val)}
    (hfg : ∀ h v r, f h v = some r → g h v = some r) :
    ∀ l h r, copyListWith f h l = some r → copyListWith g h l = some r := by
  intro l
  induction l with
  | nil => intro h r hc; exact hc
  | cons v vs ih =>
    intro h r hc
    obtain ⟨h₁, v', h₂, vs', hv, hvs, hr⟩ := copyListWith_cons_inv.mp hc
    exact copyListWith_cons_inv.mpr ⟨h₁, v', h₂, vs', hfg _ _ _ hv, ih _ _ hvs, hr⟩

theorem copyFieldsWith_congr {f g : Heap → Val → Option (Heap × Val)}
    (hfg : ∀ h v r, f h v = some r → g h v = some r) :
    ∀ fs acc h r, copyFieldsWith f h acc fs = some r →
      copyFieldsWith g h acc fs = some r := by
  intro fs
  induction fs with
  | nil => intro acc h r hc; exact hc
  | cons p rest ih =>
    obtain ⟨k, v⟩ := p
    intro acc h r hc
    obtain ⟨h₁, v', hv, hrest⟩ := copyFieldsWith_cons_inv.mp hc
    exact copyFieldsWith_cons_inv.mpr ⟨h₁, v', hfg _ _ _ hv, ih _ _ _ hrest⟩

theorem copyEntriesWith_congr {f g : Heap → Val → Option (Heap × Val)}
    (hfg : ∀ h v r, f h v = some r → g h v = some r) :
    ∀ es acc h r, copyEntriesWith f h acc es = some r →
      copyEntriesWith g h acc es = some r := by
  intro es
  induction es with
  | nil => intro acc h r hc; exact hc
  | cons p rest ih =>
    obtain ⟨k, v⟩ := p
    intro acc h r hc
    obtain ⟨h₁, v', hv, hrest⟩ := copyEntriesWith_cons_inv.mp hc
    exact copyEntriesWith_cons_inv.mpr ⟨h₁, v', hfg _ _ _ hv, ih _ _ _ hrest⟩

theorem copySetWith_congr {f g : Heap → Val → Option (Heap × Val)}
    (hfg : ∀ h v r, f h v = some r → g h v = some r) :
    ∀ l acc h r, copySetWith f h acc l = some r →
      copySetWith g h acc l = some r := by
  intro l
  induction l with
  | nil => intro acc h r hc; exact hc
  | cons v rest ih =>
    intro acc h r hc
    obtain ⟨h₁, v', hv, hrest⟩ := copySetWith_cons_inv.mp hc
    exact copySetWith_cons_inv.mpr ⟨h₁, v', hfg _ _ _ hv, ih _ _ _ hrest⟩

theorem deepCopyF_succ_mono :
    ∀ n h v r, deepCopyF n h v = some r → deepCopyF (n + 1) h v = some r := by
  intro n
  induction n with
  | zero => intro h v r hc; rw [deepCopyF] at hc; cases hc
  | succ n ih =>
    intro h v r hc
    match v with
    | .prim p => rw [deepCopyF] at hc ⊢; exact hc
    | .ref a =>
      rw [deepCopyF] at hc ⊢
      cases hl : hlookup h a with
      | none => rw [hl] at hc; exact hc
      | some o =>
        rw [hl] at hc
        cases o with
        | arr l =>
          simp only [Option.bind_eq_bind, Option.bind_eq_some, Prod.exists] at hc ⊢
          obtain ⟨h₁, l', hcl, hr⟩ := hc
          exact ⟨h₁, l', copyListWith_congr ih l h (h₁, l') hcl, hr⟩
        | record fs =>
          simp only [Option.bind_eq_bind, Option.bind_eq_some, Prod.exists] at hc ⊢
          obtain ⟨h₁, fs', hcf, hr⟩ := hc
          exact ⟨h₁, fs', copyFieldsWith_congr ih fs [] h (h₁, fs') hcf, hr⟩
        | map es =>
          simp only [Option.bind_eq_bind, Option.bind_eq_some, Prod.exists] at hc ⊢
          obtain ⟨h₁, es', hce, hr⟩ := hc
          exact ⟨h₁, es', copyEntriesWith_congr ih es [] h (h₁, es') hce, hr⟩
        | set l =>
          simp only [Option.bind_eq_bind, Option.bind_eq_some, Prod.exists] at hc ⊢
          obtain ⟨h₁, l', hcs, hr⟩ := hc
          exact ⟨h₁, l', copySetWith_congr ih l [] h (h₁, l') hcs, hr⟩
        | regexp s => exact hc
        | date t => exact hc
        | func i => exact hc
        | other fs => exact hc

theorem deepCopyF_mono {n m : Nat} (hnm : n ≤ m) :
    ∀ h v r, deepCopyF n h v = some r → deepCopyF m h v = some r := by
  induction m with
  | zero =>
    intro h v r hc
    have : n = 0 := Nat.le_zero.mp hnm
    rw [← this]; exact hc
  | succ m ih =>
    intro h v r hc
    rcases Nat.lt_or_ge n (m + 1) with hlt | hge
    · exact deepCopyF_succ_mono m h v r (ih (Nat.lt_succ_iff.mp hlt) h v r hc)
    · have : n = m + 1 := Nat.le_antisymm hnm hge
      rw [← this]; exact hc

theorem copy1KeysWith_congr
    {f g : Heap → Visited → Val → Except String (Heap × Visited × Val)}
    (hfg : ∀ h vis v r, f h vis v = .ok r → g h vis v = .ok r) {a c : Addr} :
    ∀ keys h vis r, copy1KeysWith f a c h vis keys = .ok r →
      copy1KeysWith g a c h vis keys = .ok r := by
  intro keys
  induction keys with
  | nil => intro h vis r hc; exact hc
  | cons k rest ih =>
    intro h vis r hc
    rw [copy1KeysWith] at hc ⊢
    by_cases hcond : (jsTruthy (readOwn h a k)
        && decide (typeofOp h (readOwn h a k) = "object")) = true
    · rw [if_pos hcond] at hc ⊢
      cases hfv : f h vis (readOwn h a k) with
      | error e => rw [hfv] at hc; cases hc
      | ok q =>
        obtain ⟨h₁, vis₁, v'⟩ := q
        rw [hfv] at hc
        rw [hfg _ _ _ _ hfv]
        simp only [exceptBind_ok] at hc ⊢
        exact ih _ _ _ hc
    · rw [if_neg hcond] at hc ⊢
      exact ih _ _ _ hc

theorem deepCopy1F_succ_mono :
    ∀ n h vis v r, deepCopy1F n h vis v = .ok r →
      deepCopy1F (n + 1) h vis v = .ok r := by
  intro n
  induction n with
  | zero => intro h vis v r hc; rw [deepCopy1F] at hc; cases hc
  | succ n ih =>
    intro h vis v r hc
    match v with
    | .prim p => rw [deepCopy1F] at hc; cases hc
    | .ref a =>
      rw [deepCopy1F] at hc ⊢
      cases hl : hlookup h a with
      | none => rw [hl] at hc; cases hc
      | some o =>
        rw [hl] at hc
        cases o with
        | date t => exact hc
        | regexp s => exact hc
        | arr l =>
          cases hv : vlookup vis a with
          | some c => rw [hv] at hc; exact hc
          | none =>
            rw [hv] at hc
            simp only at hc ⊢
            cases hloop : copy1KeysWith (deepCopy1F n) a
                (allocA h (.record (shallowFields (.arr l)))).2
                (allocA h (.record (shallowFields (.arr l)))).1
                ((a, (allocA h (.record (shallowFields (.arr l)))).2) :: vis)
                (ownKeysOf (.arr l)) with
            | error e => rw [hloop] at hc; cases hc
            | ok q =>
              rw [hloop] at hc
              rw [copy1KeysWith_congr ih _ _ _ _ hloop]
              exact hc
        | record fs =>
          cases hv : vlookup vis a with
          | some c => rw [hv] at hc; exact hc
          | none =>
            rw [hv] at hc
            simp only at hc ⊢
            cases hloop : copy1KeysWith (deepCopy1F n) a
                (allocA h (.record (shallowFields (.record fs)))).2
                (allocA h (.record (shallowFields (.record fs)))).1
                ((a, (allocA h (.record (shallowFields (.record fs)))).2) :: vis)
                (ownKeysOf (.record fs)) with
            | error e => rw [hloop] at hc; cases hc
            | ok q =>
              rw [hloop] at hc
              rw [copy1KeysWith_congr ih _ _ _ _ hloop]
              exact hc
        | set l =>
          cases hv : vlookup vis a with
          | some c => rw [hv] at hc; exact hc
          | none =>
            rw [hv] at hc
            simp only at hc ⊢
            cases hloop : copy1KeysWith (deepCopy1F n) a
                (allocA h (.record (shallowFields (.set l)))).2
                (allocA h (.record (shallowFields (.set l)))).1
                ((a, (allocA h (.record (shallowFields (.set l)))).2) :: vis)
                (ownKeysOf (.set l)) with
            | error e => rw [hloop] at hc; cases hc
            | ok q =>
              rw [hloop] at hc
              rw [copy1KeysWith_congr ih _ _ _ _ hloop]
              exact hc
        | map es =>
          cases hv : vlookup vis a with
          | some c => rw [hv] at hc; exact hc
          | none =>
            rw [hv] at hc
            simp only at hc ⊢
            cases hloop : copy1KeysWith (deepCopy1F n) a
                (allocA h (.record (shallowFields (.map es)))).2
                (allocA h (.record (shallowFields (.map es)))).1
                ((a, (allocA h (.record (shallowFields (.map es)))).2) :: vis)
                (ownKeysOf (.map es)) with
            | error e => rw [hloop] at hc; cases hc
            | ok q =>
              rw [hloop] at hc
              rw [copy1KeysWith_congr ih _ _ _ _ hloop]
              exact hc
        | func i =>
          cases hv : vlookup vis a with
          | some c => rw [hv] at hc; exact hc
          | none =>
            rw [hv] at hc
            simp only at hc ⊢
            cases hloop : copy1KeysWith (deepCopy1F n) a
                (allocA h (.record (shallowFields (.func i)))).2
                (allocA h (.record (shallowFields (.func i)))).1
                ((a, (allocA h (.record (shallowFields (.func i)))).2) :: vis)
                (ownKeysOf (.func i)) with
            | error e => rw [hloop] at hc; cases hc
            | ok q =>
              rw [hloop] at hc
              rw [copy1KeysWith_congr ih _ _ _ _ hloop]
              exact hc
        | other fs =>
          cases hv : vlookup vis a with
          | some c => rw [hv] at hc; exact hc
          | none =>
            rw [hv] at hc
            simp only at hc ⊢
            cases hloop : copy1KeysWith (deepCopy1F n) a
                (allocA h (.record (shallowFields (.other fs)))).2
                (allocA h (.record (shallowFields (.other fs)))).1
                ((a, (allocA h (.record (shallowFields (.other fs)))).2) :: vis)
                (ownKeysOf (.other fs)) with
            | error e => rw [hloop] at hc; cases hc
            | ok q =>
              rw [hloop] at hc
              rw [copy1KeysWith_congr ih _ _ _ _ hloop]
              exact hc

theorem deepCopy1F_mono {n m : Nat} (hnm : n ≤ m) :
    ∀ h vis v r, deepCopy1F n h vis v = .ok r → deepCopy1F m h vis v = .ok r := by
  induction m with
  | zero =>
    intro h vis v r hc
    have : n = 0 := Nat.le_zero.mp hnm
    rw [← this]; exact hc
  | succ m ih =>
    intro h vis v r hc
    rcases Nat.lt_or_ge n (m + 1) with hlt | hge
    · exact deepCopy1F_succ_mono m h vis v r (ih (Nat.lt_succ_iff.mp hlt) h vis v r hc)
    · have : n = m + 1 := Nat.le_antisymm hnm hge
      rw [← this]; exact hc

/-! ### Property reads land in children -/

theorem recordGet_mem : ∀ (fs : List (String × Val)) (k : String),
    recordGet fs k = .prim .undefVal ∨ recordGet fs k ∈ fs.map Prod.snd := by
  intro fs
  induction fs with
  | nil => intro k; left; rfl
  | cons p rest ih =>
    obtain ⟨k', v⟩ := p
    intro k
    rw [recordGet]
    by_cases hk : k = k'
    · rw [if_pos hk]; right; simp
    · rw [if_neg hk]
      rcases ih k with hu | hm
      · left; exact hu
      · right; simp [hm]

theorem objGetOwn_spec : ∀ (o : Obj) (k : String),
    (∃ p, objGetOwn o k = .prim p) ∨ objGetOwn o k ∈ o.children := by
  intro o k
  cases o with
  | arr l =>
    rw [objGetOwn]
    by_cases hk : k = "length"
    · rw [if_pos hk]; exact Or.inl ⟨_, rfl⟩
    · rw [if_neg hk]
      cases hn : k.toNat? with
      | none => exact Or.inl ⟨_, rfl⟩
      | some i =>
        cases hg : l[i]? with
        | none =>
          left
          refine ⟨.undefVal, ?_⟩
          simp [List.getD_eq_getElem?_getD, hg]
        | some x =>
          right
          show l.getD i (Val.prim .undefVal) ∈ (Obj.arr l).children
          have : l.getD i (Val.prim .undefVal) = x := by
            simp [List.getD_eq_getElem?_getD, hg]
          rw [this]
          exact List.getElem?_mem hg
  | record fs =>
    rcases recordGet_mem fs k with hu | hm
    · exact Or.inl ⟨.undefVal, hu⟩
    · exact Or.inr hm
  | other fs =>
    rcases recordGet_mem fs k with hu | hm
    · exact Or.inl ⟨.undefVal, hu⟩
    · exact Or.inr hm
  | date t => exact Or.inl ⟨.undefVal, rfl⟩
  | regexp s => exact Or.inl ⟨.undefVal, rfl⟩
  | set l => exact Or.inl ⟨.undefVal, rfl⟩
  | map es => exact Or.inl ⟨.undefVal, rfl⟩
  | func i => exact Or.inl ⟨.undefVal, rfl⟩

/-! ### Totality of deepCopy on acyclic inputs -/

theorem copyListTotal (h : Heap) :
    ∀ l : List Val,
      (∀ w ∈ l, ∀ h₂, HExt h h₂ → ∃ n r, deepCopyF n h₂ w = some r) →
      ∀ h₂, HExt h h₂ →
        ∃ n h₃ l', copyListWith (deepCopyF n) h₂ l = some (h₃, l') ∧ HExt h h₃ := by
  intro l
  induction l with
  | nil =>
    intro _ h₂ hext
    exact ⟨1, h₂, [], by rw [copyListWith], hext⟩
  | cons v vs ih =>
    intro helem h₂ hext
    obtain ⟨n₁, ⟨h₃, v'⟩, hv⟩ := helem v (List.mem_cons_self v vs) h₂ hext
    have hext₃ : HExt h h₃ := hext.trans (deepCopyF_ext n₁ h₂ v h₃ v' hv)
    obtain ⟨n₂, h₄, vs', hvs, hext₄⟩ :=
      ih (fun w hw => helem w (List.mem_cons_of_mem v hw)) h₃ hext₃
    refine ⟨max n₁ n₂, h₄, v' :: vs', ?_, hext₄⟩
    refine copyListWith_cons_inv.mpr ⟨h₃, v', h₄, vs', ?_, ?_, rfl⟩
    · exact deepCopyF_mono (Nat.le_max_left n₁ n₂) h₂ v (h₃, v') hv
    · exact copyListWith_congr
        (fun hh vv rr hc => deepCopyF_mono (Nat.le_max_right n₁ n₂) hh vv rr hc)
        vs h₃ (h₄, vs') hvs

theorem copyFieldsTotal (h : Heap) :
    ∀ fs : List (String × Val),
      (∀ p ∈ fs, ∀ h₂, HExt h h₂ → ∃ n r, deepCopyF n h₂ p.2 = some r) →
      ∀ acc h₂, HExt h h₂ →
        ∃ n h₃ out, copyFieldsWith (deepCopyF n) h₂ acc fs = some (h₃, out)
          ∧ HExt h h₃ := by
  intro fs
  induction fs with
  | nil =>
    intro _ acc h₂ hext
    exact ⟨1, h₂, acc, by rw [copyFieldsWith], hext⟩
  | cons p rest ih =>
    obtain ⟨k, v⟩ := p
    intro helem acc h₂ hext
    obtain ⟨n₁, ⟨h₃, v'⟩, hv⟩ :=
      helem (k, v) (List.mem_cons_self (k, v) rest) h₂ hext
    have hext₃ : HExt h h₃ := hext.trans (deepCopyF_ext n₁ h₂ v h₃ v' hv)
    obtain ⟨n₂, h₄, out, hrest, hext₄⟩ :=
      ih (fun w hw => helem w (List.mem_cons_of_mem (k, v) hw))
        (recordSet acc k v') h₃ hext₃
    refine ⟨max n₁ n₂, h₄, out, ?_, hext₄⟩
    refine copyFieldsWith_cons_inv.mpr ⟨h₃, v', ?_, ?_⟩
    · exact deepCopyF_mono (Nat.le_max_left n₁ n₂) h₂ v (h₃, v') hv
    · exact copyFieldsWith_congr
        (fun hh vv rr hc => deepCopyF_mono (Nat.le_max_right n₁ n₂) hh vv rr hc)
        rest _ h₃ (h₄, out) hrest

theorem copyEntriesTotal (h : Heap) :
    ∀ es : List (Val × Val),
      (∀ e ∈ es, ∀ h₂, HExt h h₂ → ∃ n r, deepCopyF n h₂ e.2 = some r) →
      ∀ acc h₂, HExt h h₂ →
        ∃ n h₃ out, copyEntriesWith (deepCopyF n) h₂ acc es = some (h₃, out)
          ∧ HExt h h₃ := by
  intro es
  induction es with
  | nil =>
    intro _ acc h₂ hext
    exact ⟨1, h₂, acc, by rw [copyEntriesWith], hext⟩
  | cons p rest ih =>
    obtain ⟨k, v⟩ := p
    intro helem acc h₂ hext
    obtain ⟨n₁, ⟨h₃, v'⟩, hv⟩ :=
      helem (k, v) (List.mem_cons_self (k, v) rest) h₂ hext
    have hext₃ : HExt h h₃ := hext.trans (deepCopyF_ext n₁ h₂ v h₃ v' hv)
    obtain ⟨n₂, h₄, out, hrest, hext₄⟩ :=
      ih (fun w hw => helem w (List.mem_cons_of_mem (k, v) hw))
        (mapSet acc k v') h₃ hext₃
    refine ⟨max n₁ n₂, h₄, out, ?_, hext₄⟩
    refine copyEntriesWith_cons_inv.mpr ⟨h₃, v', ?_, ?_⟩
    · exact deepCopyF_mono (Nat.le_max_left n₁ n₂) h₂ v (h₃, v') hv
    · exact copyEntriesWith_congr
        (fun hh vv rr hc => deepCopyF_mono (Nat.le_max_right n₁ n₂) hh vv rr hc)
        rest _ h₃ (h₄, out) hrest

theorem copySetTotal (h : Heap) :
    ∀ l : List Val,
      (∀ w ∈ l, ∀ h₂, HExt h h₂ → ∃ n r, deepCopyF n h₂ w = some r) →
      ∀ acc h₂, HExt h h₂ →
        ∃ n h₃ out, copySetWith (deepCopyF n) h₂ acc l = some (h₃, out)
          ∧ HExt h h₃ := by
  intro l
  induction l with
  | nil =>
    intro _ acc h₂ hext
    exact ⟨1, h₂, acc, by rw [copySetWith], hext⟩
  | cons v rest ih =>
    intro helem acc h₂ hext
    obtain ⟨n₁, ⟨h₃, v'⟩, hv⟩ := helem v (List.mem_cons_self v rest) h₂ hext
    have hext₃ : HExt h h₃ := hext.trans (deepCopyF_ext n₁ h₂ v h₃ v' hv)
    obtain ⟨n₂, h₄, out, hrest, hext₄⟩ :=
      ih (fun w hw => helem w (List.mem_cons_of_mem v hw)) (setAdd acc v') h₃ hext₃
    refine ⟨max n₁ n₂, h₄, out, ?_, hext₄⟩
    refine copySetWith_cons_inv.mpr ⟨h₃, v', ?_, ?_⟩
    · exact deepCopyF_mono (Nat.le_max_left n₁ n₂) h₂ v (h₃, v') hv
    · exact copySetWith_congr
        (fun hh vv rr hc => deepCopyF_mono (Nat.le_max_right n₁ n₂) hh vv rr hc)
        rest _ h₃ (h₄, out) hrest

/-- Acyclic values are cloned successfully by deepCopy given enough fuel, in
any extension of the heap in which they are acyclic. -/
theorem deepCopyF_total_aux {h : Heap} {v : Val} (hac : Acyclic h v) :
    ∀ h₂, HExt h h₂ → ∃ n r, deepCopyF n h₂ v = some r := by
  induction hac with
  | prim p =>
    intro h₂ _
    exact ⟨1, (h₂, .prim p), by rw [deepCopyF]⟩
  | ref a o hl hch ih =>
    intro h₂ hext
    have hl₂ : hlookup h₂ a = some o := hext a o hl
    cases o with
    | arr l =>
      obtain ⟨n, h₃, l', hcl, _⟩ := copyListTotal h l (fun w hw => ih w hw) h₂ hext
      refine ⟨n + 1, ((allocA h₃ (.arr l')).1, .ref (allocA h₃ (.arr l')).2), ?_⟩
      rw [deepCopyF, hl₂]
      simp only [hcl, Option.bind_eq_bind, Option.some_bind]
      rfl
    | record fs =>
      obtain ⟨n, h₃, out, hcf, _⟩ := copyFieldsTotal h fs
        (fun p hp => ih p.2 (by simp [Obj.children]; exact ⟨p.1, hp⟩)) [] h₂ hext
      refine ⟨n + 1, ((allocA h₃ (.record out)).1, .ref (allocA h₃ (.record out)).2), ?_⟩
      rw [deepCopyF, hl₂]
      simp only [hcf, Option.bind_eq_bind, Option.some_bind]
      rfl
    | map es =>
      obtain ⟨n, h₃, out, hce, _⟩ := copyEntriesTotal h es
        (fun e he => ih e.2 (by simp [Obj.children]; right; exact ⟨e.1, he⟩)) [] h₂ hext
      refine ⟨n + 1, ((allocA h₃ (.map out)).1, .ref (allocA h₃ (.map out)).2), ?_⟩
      rw [deepCopyF, hl₂]
      simp only [hce, Option.bind_eq_bind, Option.some_bind]
      rfl
    | set l =>
      obtain ⟨n, h₃, out, hcs, _⟩ := copySetTotal h l (fun w hw => ih w hw) [] h₂ hext
      refine ⟨n + 1, ((allocA h₃ (.set out)).1, .ref (allocA h₃ (.set out)).2), ?_⟩
      rw [deepCopyF, hl₂]
      simp only [hcs, Option.bind_eq_bind, Option.some_bind]
      rfl
    | regexp s =>
      exact ⟨1, _, by rw [deepCopyF, hl₂]⟩
    | date t =>
      exact ⟨1, _, by rw [deepCopyF, hl₂]⟩
    | func i =>
      exact ⟨1, (h₂, .ref a), by rw [deepCopyF, hl₂]⟩
    | other fs =>
      exact ⟨1, (h₂, .ref a), by rw [deepCopyF, hl₂]⟩

/-! ### Totality of deepCopy1 on acyclic reference inputs -/

theorem prim_not_recursable (hcur : Heap) (p : Prim) :
    (jsTruthy (.prim p) && decide (typeofOp hcur (.prim p) = "object")) = false := by
  cases p <;> simp [jsTruthy, typeofOp]

/-- The key loop of deepCopy1 terminates successfully when the original
object's children are acyclic (any recursable property value is a child, and
cloning a child succeeds by hypothesis). -/
theorem copy1KeysTotal {h : Heap} {a c : Addr} {o : Obj}
    (hl : hlookup h a = some o)
    (ihch : ∀ w ∈ o.children, ∀ a', w = .ref a' → ∀ h₂ vis, HExt h h₂ →
      ∃ n r, deepCopy1F n h₂ vis (.ref a') = .ok r)
    (hcfresh : hlookup h c = none) :
    ∀ keys : List String, ∀ hcur vis, HExt h hcur →
      ∃ n r, copy1KeysWith (deepCopy1F n) a c hcur vis keys = .ok r := by
  intro keys
  induction keys with
  | nil =>
    intro hcur vis _
    exact ⟨1, (hcur, vis), by rw [copy1KeysWith]⟩
  | cons k rest ih =>
    intro hcur vis hext
    have hro : readOwn hcur a k = objGetOwn o k := by
      rw [readOwn, hext a o hl]
    by_cases hcond : (jsTruthy (readOwn hcur a k)
        && decide (typeofOp hcur (readOwn hcur a k) = "object")) = true
    · have hmem : objGetOwn o k ∈ o.children := by
        rcases objGetOwn_spec o k with ⟨p, hp⟩ | hm
        · rw [hro, hp] at hcond
          rw [prim_not_recursable hcur p] at hcond
          cases hcond
        · exact hm
      obtain ⟨a', ha'⟩ : ∃ a', objGetOwn o k = .ref a' := by
        cases hov : objGetOwn o k with
        | prim p =>
          rw [hro, hov, prim_not_recursable hcur p] at hcond
          cases hcond
        | ref a' => exact ⟨a', rfl⟩
      obtain ⟨n₁, ⟨h₄, vis₄, v₄⟩, hok⟩ :=
        ihch _ hmem a' ha' hcur vis hext
      have hext₄ : HExt h h₄ :=
        hext.trans (deepCopy1F_ext n₁ hcur vis (.ref a') h₄ vis₄ v₄ hok)
      have hext₅ : HExt h (setCloneField h₄ c k v₄) :=
        setCloneField_ext hext₄ hcfresh k v₄
      obtain ⟨n₂, r₂, hrest⟩ := ih (setCloneField h₄ c k v₄) vis₄ hext₅
      refine ⟨max n₁ n₂, r₂, ?_⟩
      rw [copy1KeysWith, if_pos hcond]
      have hokN : deepCopy1F (max n₁ n₂) hcur vis (readOwn hcur a k) =
          .ok (h₄, vis₄, v₄) := by
        rw [hro, ha']
        exact deepCopy1F_mono (Nat.le_max_left n₁ n₂) hcur vis (.ref a') _ hok
      rw [hokN]
      simp only [exceptBind_ok]
      have hrestN := copy1KeysWith_congr
        (fun hh vv ww rr hc => deepCopy1F_mono (Nat.le_max_right n₁ n₂) hh vv ww rr hc)
        rest _ _ _ hrest
      exact hrestN
    · have hext' : HExt h (setCloneField hcur c k (readOwn hcur a k)) :=
        setCloneField_ext hext hcfresh k _
      obtain ⟨n₂, r₂, hrest⟩ := ih _ vis hext'
      refine ⟨n₂, r₂, ?_⟩
      rw [copy1KeysWith, if_neg hcond]
      exact hrest

/-- Acyclic reference values are cloned successfully (no thrown TypeError) by
deepCopy1 given enough fuel, in any extension of the heap, starting from any
visited registry. -/
theorem deepCopy1F_total_aux {h : Heap} {v : Val} (hac : Acyclic h v) :
    ∀ aa, v = .ref aa → ∀ h₂ vis, HExt h h₂ →
      ∃ n r, deepCopy1F n h₂ vis (.ref aa) = .ok r := by
  induction hac with
  | prim p => intro aa heq; cases heq
  | ref a o hl hch ih =>
    intro aa heq h₂ vis hext
    have haa : a = aa := by injection heq
    subst haa
    have hl₂ : hlookup h₂ a = some o := hext a o hl
    cases o with
    | date t =>
      refine ⟨1, ((allocA h₂ (.date t)).1, vis, .ref (allocA h₂ (.date t)).2), ?_⟩
      rw [deepCopy1F]
      simp only [hl₂]
    | regexp s =>
      refine ⟨1, ((allocA h₂ (.regexp s)).1, vis, .ref (allocA h₂ (.regexp s)).2), ?_⟩
      rw [deepCopy1F]
      simp only [hl₂]
        | arr l =>
          cases hvis : vlookup vis a with
          | some c =>
            refine ⟨1, (h₂, vis, .ref c), ?_⟩
            rw [deepCopy1F]
            simp only [hl₂, hvis]
          | none =>
            have hcfresh : hlookup h (allocA h₂ (.record (shallowFields (Obj.arr l)))).2 = none := by
              cases hcl : hlookup h (allocA h₂ (.record (shallowFields (Obj.arr l)))).2 with
              | none => rfl
              | some oo =>
                have hcontra := hext _ _ hcl
                rw [show (allocA h₂ (.record (shallowFields (Obj.arr l)))).2
                    = maxAddr h₂ + 1 from rfl, hlookup_fresh h₂] at hcontra
                cases hcontra
            obtain ⟨N, ⟨h₅, vis₅⟩, hloop⟩ :=
              copy1KeysTotal hl ih hcfresh (ownKeysOf (Obj.arr l))
                (allocA h₂ (.record (shallowFields (Obj.arr l)))).1
                ((a, (allocA h₂ (.record (shallowFields (Obj.arr l)))).2) :: vis)
                (hext.trans (HExt.alloc h₂ _))
            refine ⟨N + 1, (h₅, vis₅,
              .ref (allocA h₂ (.record (shallowFields (Obj.arr l)))).2), ?_⟩
            rw [deepCopy1F]
            simp only [hl₂, hvis, hloop, exceptBind_ok]
            rfl
        | record fs =>
          cases hvis : vlookup vis a with
          | some c =>
            refine ⟨1, (h₂, vis, .ref c), ?_⟩
            rw [deepCopy1F]
            simp only [hl₂, hvis]
          | none =>
            have hcfresh : hlookup h (allocA h₂ (.record (shallowFields (Obj.record fs)))).2 = none := by
              cases hcl : hlookup h (allocA h₂ (.record (shallowFields (Obj.record fs)))).2 with
              | none => rfl
              | some oo =>
                have hcontra := hext _ _ hcl
                rw [show (allocA h₂ (.record (shallowFields (Obj.record fs)))).2
                    = maxAddr h₂ + 1 from rfl, hlookup_fresh h₂] at hcontra
                cases hcontra
            obtain ⟨N, ⟨h₅, vis₅⟩, hloop⟩ :=
              copy1KeysTotal hl ih hcfresh (ownKeysOf (Obj.record fs))
                (allocA h₂ (.record (shallowFields (Obj.record fs)))).1
                ((a, (allocA h₂ (.record (shallowFields (Obj.record fs)))).2) :: vis)
                (hext.trans (HExt.alloc h₂ _))
            refine ⟨N + 1, (h₅, vis₅,
              .ref (allocA h₂ (.record (shallowFields (Obj.record fs)))).2), ?_⟩
            rw [deepCopy1F]
            simp only [hl₂, hvis, hloop, exceptBind_ok]
            rfl
        | set l =>
          cases hvis : vlookup vis a with
          | some c =>
            refine ⟨1, (h₂, vis, .ref c), ?_⟩
            rw [deepCopy1F]
            simp only [hl₂, hvis]
          | none =>
            have hcfresh : hlookup h (allocA h₂ (.record (shallowFields (Obj.set l)))).2 = none := by
              cases hcl : hlookup h (allocA h₂ (.record (shallowFields (Obj.set l)))).2 with
              | none => rfl
              | some oo =>
                have hcontra := hext _ _ hcl
                rw [show (allocA h₂ (.record (shallowFields (Obj.set l)))).2
                    = maxAddr h₂ + 1 from rfl, hlookup_fresh h₂] at hcontra
                cases hcontra
            obtain ⟨N, ⟨h₅, vis₅⟩, hloop⟩ :=
              copy1KeysTotal hl ih hcfresh (ownKeysOf (Obj.set l))
                (allocA h₂ (.record (shallowFields (Obj.set l)))).1
                ((a, (allocA h₂ (.record (shallowFields (Obj.set l)))).2) :: vis)
                (hext.trans (HExt.alloc h₂ _))
            refine ⟨N + 1, (h₅, vis₅,
              .ref (allocA h₂ (.record (shallowFields (Obj.set l)))).2), ?_⟩
            rw [deepCopy1F]
            simp only [hl₂, hvis, hloop, exceptBind_ok]
            rfl
        | map es =>
          cases hvis : vlookup vis a with
          | some c =>
            refine ⟨1, (h₂, vis, .ref c), ?_⟩
            rw [deepCopy1F]
            simp only [hl₂, hvis]
          | none =>
            have hcfresh : hlookup h (allocA h₂ (.record (shallowFields (Obj.map es)))).2 = none := by
              cases hcl : hlookup h (allocA h₂ (.record (shallowFields (Obj.map es)))).2 with
              | none => rfl
              | some oo =>
                have hcontra := hext _ _ hcl
                rw [show (allocA h₂ (.record (shallowFields (Obj.map es)))).2
                    = maxAddr h₂ + 1 from rfl, hlookup_fresh h₂] at hcontra
                cases hcontra
            obtain ⟨N, ⟨h₅, vis₅⟩, hloop⟩ :=
              copy1KeysTotal hl ih hcfresh (ownKeysOf (Obj.map es))
                (allocA h₂ (.record (shallowFields (Obj.map es)))).1
                ((a, (allocA h₂ (.record (shallowFields (Obj.map es)))).2) :: vis)
                (hext.trans (HExt.alloc h₂ _))
            refine ⟨N + 1, (h₅, vis₅,
              .ref (allocA h₂ (.record (shallowFields (Obj.map es)))).2), ?_⟩
            rw [deepCopy1F]
            simp only [hl₂, hvis, hloop, exceptBind_ok]
            rfl
        | func i =>
          cases hvis : vlookup vis a with
          | some c =>
            refine ⟨1, (h₂, vis, .ref c), ?_⟩
            rw [deepCopy1F]
            simp only [hl₂, hvis]
          | none =>
            have hcfresh : hlookup h (allocA h₂ (.record (shallowFields (Obj.func i)))).2 = none := by
              cases hcl : hlookup h (allocA h₂ (.record (shallowFields (Obj.func i)))).2 with
              | none => rfl
              | some oo =>
                have hcontra := hext _ _ hcl
                rw [show (allocA h₂ (.record (shallowFields (Obj.func i)))).2
                    = maxAddr h₂ + 1 from rfl, hlookup_fresh h₂] at hcontra
                cases hcontra
            obtain ⟨N, ⟨h₅, vis₅⟩, hloop⟩ :=
              copy1KeysTotal hl ih hcfresh (ownKeysOf (Obj.func i))
                (allocA h₂ (.record (shallowFields (Obj.func i)))).1
                ((a, (allocA h₂ (.record (shallowFields (Obj.func i)))).2) :: vis)
                (hext.trans (HExt.alloc h₂ _))
            refine ⟨N + 1, (h₅, vis₅,
              .ref (allocA h₂ (.record (shallowFields (Obj.func i)))).2), ?_⟩
            rw [deepCopy1F]
            simp only [hl₂, hvis, hloop, exceptBind_ok]
            rfl
        | other fs =>
          cases hvis : vlookup vis a with
          | some c =>
            refine ⟨1, (h₂, vis, .ref c), ?_⟩
            rw [deepCopy1F]
            simp only [hl₂, hvis]
          | none =>
            have hcfresh : hlookup h (allocA h₂ (.record (shallowFields (Obj.other fs)))).2 = none := by
              cases hcl : hlookup h (allocA h₂ (.record (shallowFields (Obj.other fs)))).2 with
              | none => rfl
              | some oo =>
                have hcontra := hext _ _ hcl
                rw [show (allocA h₂ (.record (shallowFields (Obj.other fs)))).2
                    = maxAddr h₂ + 1 from rfl, hlookup_fresh h₂] at hcontra
                cases hcontra
            obtain ⟨N, ⟨h₅, vis₅⟩, hloop⟩ :=
              copy1KeysTotal hl ih hcfresh (ownKeysOf (Obj.other fs))
                (allocA h₂ (.record (shallowFields (Obj.other fs)))).1
                ((a, (allocA h₂ (.record (shallowFields (Obj.other fs)))).2) :: vis)
                (hext.trans (HExt.alloc h₂ _))
            refine ⟨N + 1, (h₅, vis₅,
              .ref (allocA h₂ (.record (shallowFields (Obj.other fs)))).2), ?_⟩
            rw [deepCopy1F]
            simp only [hl₂, hvis, hloop, exceptBind_ok]
            rfl

/-- C10.  The strict type-dispatch clone (no visited registry) terminates on
every acyclic input: some amount of fuel produces a result. -/
theorem C10_acyclic_termination :
    ∀ h v, Acyclic h v → ∃ n r, deepCopyF n h v = some r :=
  fun h v hac => deepCopyF_total_aux hac h (HExt.refl h)

/-- C10, witness: the one-element array at address 0 is acyclic and its clone
terminates. -/
theorem C10_acyclic_termination_witness :
    ∃ n r, deepCopyF n [(0, Obj.arr [Val.prim (.num 1)])] (.ref 0) = some r :=
  C10_acyclic_termination _ _
    (Acyclic.ref 0 (.arr [.prim (.num 1)]) rfl
      (fun w hw => by
        simp [Obj.children] at hw
        subst hw
        exact Acyclic.prim _))

/-- C3, amended.  The strict-dispatch deepCopy returns a result for every
acyclic input (it has no throwing path at all, and unclassified objects take
the default fall-through, returning the value untouched rather than being
rejected); deepCopy1 returns without throwing on every acyclic reference
input, but throws a TypeError on every primitive input. -/
theorem C3_totality_amended :
    (∀ h v, Acyclic h v → ∃ n r, deepCopyF n h v = some r)
    ∧ (∀ h a, Acyclic h (.ref a) → ∃ n r, deepCopy1Run n h (.ref a) = .ok r)
    ∧ (∀ n h a fs, hlookup h a = some (.other fs) →
        deepCopyF (n + 1) h (.ref a) = some (h, .ref a))
    ∧ (∀ n (h : Heap) (p : Prim),
        deepCopy1Run (n + 1) h (.prim p) = .error "TypeError") := by
  refine ⟨fun h v hac => deepCopyF_total_aux hac h (HExt.refl h),
    fun h a hac => deepCopy1F_total_aux hac a rfl h [] (HExt.refl h),
    ?_, ?_⟩
  · intro n h a fs hl
    rw [deepCopyF, hl]
  · intro n h p
    rw [deepCopy1Run, deepCopy1F]

/-- C3, witness: a one-field record is acyclic; deepCopy1 clones it without
error. -/
theorem C3_totality_amended_witness :
    ∃ n r, deepCopy1Run n [(0, Obj.record [("x", Val.prim (.num 2))])]
      (.ref 0) = .ok r :=
  C3_totality_amended.2.1 _ 0
    (Acyclic.ref 0 (.record [("x", .prim (.num 2))]) rfl
      (fun w hw => by
        simp [Obj.children] at hw
        subst hw
        exact Acyclic.prim _))

/-! ### Helper lemmas for the clone/equal round trip -/

theorem jsEq_refl : ∀ v : Val, jsEq v v = true := by
  intro v
  cases v <;> simp [jsEq]

theorem jsEq_comm : ∀ v w : Val, jsEq v w = jsEq w v := by
  intro v w
  cases v <;> cases w <;> simp [jsEq] <;> exact eq_comm

theorem entriesLoop_refl : ∀ es : List (Val × Val), entriesLoop es es = true := by
  intro es
  induction es with
  | nil => rfl
  | cons e rest ih =>
    rw [entriesLoop]
    rw [if_neg (by simp [jsEq_refl])]
    exact ih

theorem copyListWith_length {f : Heap → Val → Option (Heap × Val)} :
    ∀ l h h' l', copyListWith f h l = some (h', l') → l'.length = l.length := by
  intro l
  induction l with
  | nil =>
    intro h h' l' hc
    rw [copyListWith] at hc
    cases hc
    rfl
  | cons v vs ih =>
    intro h h' l' hc
    obtain ⟨h₁, v', h₂, vs', _, hrest, hr⟩ := copyListWith_cons_inv.mp hc
    have hlen := ih h₁ h₂ vs' hrest
    injection hr with e₁ e₂
    rw [e₂]
    simp [hlen]

theorem primOrFunc_ext {h h₂ : Heap} (hext : HExt h h₂) {w : Val}
    (hp : primOrFunc h w = true) : primOrFunc h₂ w = true := by
  cases w with
  | prim p => rfl
  | ref a =>
    rw [primOrFunc] at hp
    cases hl : hlookup h a with
    | none => rw [hl] at hp; cases hp
    | some o =>
      rw [hl] at hp
      cases o with
      | func i => rw [primOrFunc, hext a _ hl]
      | arr l => cases hp
      | record fs => cases hp
      | date t => cases hp
      | regexp s => cases hp
      | set l => cases hp
      | map es => cases hp
      | other fs => cases hp

theorem goodF_ext : ∀ n {h h₂ : Heap} {v : Val}, HExt h h₂ →
    goodF n h v = true → goodF n h₂ v = true := by
  intro n
  induction n with
  | zero => intro h h₂ v _ hg; rw [goodF] at hg; cases hg
  | succ n ih =>
    intro h h₂ v hext hg
    cases v with
    | prim p => rfl
    | ref a =>
      rw [goodF] at hg
      cases hl : hlookup h a with
      | none => rw [hl] at hg; cases hg
      | some o =>
        rw [hl] at hg
        rw [goodF, hext a o hl]
        cases o with
        | arr l =>
          simp only [List.all_eq_true] at hg ⊢
          exact fun w hw => ih hext (hg w hw)
        | record fs =>
          simp only [Bool.and_eq_true, List.all_eq_true] at hg ⊢
          exact ⟨hg.1, fun p hp => ih hext (hg.2 p hp)⟩
        | set l =>
          simp only [Bool.and_eq_true, List.all_eq_true] at hg ⊢
          exact ⟨hg.1, fun w hw => primOrFunc_ext hext (hg.2 w hw)⟩
        | map es =>
          simp only [Bool.and_eq_true, List.all_eq_true] at hg ⊢
          exact ⟨hg.1, fun e he => primOrFunc_ext hext (hg.2 e he)⟩
        | date t => rfl
        | regexp s => rfl
        | func i => rfl
        | other fs => rfl

/-- Cloning a primitive or a function reference is the identity: the heap is
untouched and the very same value is returned. -/
theorem primOrFunc_clone {h h₀ : Heap} (hext : HExt h h₀) {w : Val}
    (hp : primOrFunc h w = true) :
    ∀ n r, deepCopyF n h₀ w = some r → r = (h₀, w) := by
  intro n r hc
  cases n with
  | zero => rw [deepCopyF] at hc; cases hc
  | succ n =>
    cases w with
    | prim p =>
      rw [deepCopyF] at hc
      cases hc
      rfl
    | ref a =>
      rw [primOrFunc] at hp
      cases hl : hlookup h a with
      | none => rw [hl] at hp; cases hp
      | some o =>
        rw [hl] at hp
        cases o with
        | func i =>
          rw [deepCopyF, hext a _ hl] at hc
          cases hc
          rfl
        | arr l => cases hp
        | record fs => cases hp
        | date t => cases hp
        | regexp s => cases hp
        | set l => cases hp
        | map es => cases hp
        | other fs => cases hp

theorem recordSet_append : ∀ (acc : List (String × Val)) (k : String) (v : Val),
    (∀ q ∈ acc, k ≠ q.1) → recordSet acc k v = acc ++ [(k, v)] := by
  intro acc k v
  induction acc with
  | nil => intro _; rfl
  | cons q rest ih =>
    obtain ⟨k', v'⟩ := q
    intro hdisj
    rw [recordSet]
    rw [if_neg (hdisj (k', v') (List.mem_cons_self _ _))]
    rw [ih (fun q hq => hdisj q (List.mem_cons_of_mem _ hq))]
    rfl

theorem mapSet_append : ∀ (acc : List (Val × Val)) (k v : Val),
    (∀ q ∈ acc, jsEq k q.1 = false) → mapSet acc k v = acc ++ [(k, v)] := by
  intro acc k v
  induction acc with
  | nil => intro _; rfl
  | cons q rest ih =>
    obtain ⟨k', v'⟩ := q
    intro hdisj
    rw [mapSet]
    rw [if_neg (by rw [hdisj (k', v') (List.mem_cons_self _ _)]; exact Bool.false_ne_true)]
    rw [ih (fun q hq => hdisj q (List.mem_cons_of_mem _ hq))]
    rfl

theorem setAdd_append : ∀ (acc : List Val) (v : Val),
    acc.any (fun x => jsEq x v) = false → setAdd acc v = acc ++ [v] := by
  intro acc v hno
  rw [setAdd, hno]
  rfl

theorem recordGet_of_nodup : ∀ (fs : List (String × Val)) (k : String) (v : Val),
    keysNodup (fs.map Prod.fst) = true → (k, v) ∈ fs → recordGet fs k = v := by
  intro fs
  induction fs with
  | nil => intro k v _ hm; cases hm
  | cons p rest ih =>
    obtain ⟨k', v'⟩ := p
    intro k v hnd hm
    simp only [List.map_cons, keysNodup, Bool.and_eq_true,
      Bool.not_eq_true'] at hnd
    rcases List.mem_cons.mp hm with heq | htail
    · cases heq
      rw [recordGet, if_pos rfl]
    · rw [recordGet]
      by_cases hk : k = k'
      · exfalso
        subst hk
        have hmem : (k, v).1 ∈ rest.map Prod.fst :=
          List.mem_map_of_mem Prod.fst htail
        have hany : (rest.map Prod.fst).any (fun x => decide (k = x)) = true :=
          List.any_eq_true.mpr ⟨k, hmem, by simp⟩
        rw [hany] at hnd
        cases hnd.1
      · rw [if_neg hk]
        exact ih k v hnd.2 htail

theorem CloneSeqF.toExt {n : Nat} :
    ∀ {h₀ fs cl h₁}, CloneSeqF n h₀ fs cl h₁ → HExt h₀ h₁ := by
  intro h₀ fs cl h₁ hseq
  induction hseq with
  | nil h => exact HExt.refl h
  | cons hd _ ih => exact (deepCopyF_ext _ _ _ _ _ hd).trans ih

/-- Structure of the record clone: with duplicate-free keys disjoint from the
accumulator, the assignments append, producing a clone field list with the
same keys whose values arise from chained deepCopy calls. -/
theorem fieldsCloneSpec {n : Nat} :
    ∀ (fs : List (String × Val)) (acc : List (String × Val)) (h₀ h₁ : Heap)
      (out : List (String × Val)),
      (∀ p ∈ fs, ∀ q ∈ acc, p.1 ≠ q.1) →
      keysNodup (fs.map Prod.fst) = true →
      copyFieldsWith (deepCopyF n) h₀ acc fs = some (h₁, out) →
      ∃ cl, out = acc ++ cl ∧ cl.map Prod.fst = fs.map Prod.fst ∧
        CloneSeqF n h₀ fs cl h₁ := by
  intro fs
  induction fs with
  | nil =>
    intro acc h₀ h₁ out _ _ hc
    rw [copyFieldsWith] at hc
    cases hc
    exact ⟨[], by simp, rfl, CloneSeqF.nil h₀⟩
  | cons p rest ih =>
    obtain ⟨k, v⟩ := p
    intro acc h₀ h₁ out hdisj hnd hc
    obtain ⟨h₃, v', hv, hrest⟩ := copyFieldsWith_cons_inv.mp hc
    simp only [List.map_cons, keysNodup, Bool.and_eq_true,
      Bool.not_eq_true'] at hnd
    have hacc : recordSet acc k v' = acc ++ [(k, v')] :=
      recordSet_append acc k v'
        (fun q hq => hdisj (k, v) (List.mem_cons_self _ _) q hq)
    rw [hacc] at hrest
    have hdisj' : ∀ p ∈ rest, ∀ q ∈ acc ++ [(k, v')], p.1 ≠ q.1 := by
      intro p hp q hq
      rcases List.mem_append.mp hq with hqa | hqk
      · exact hdisj p (List.mem_cons_of_mem _ hp) q hqa
      · have : q = (k, v') := by simpa using hqk
        subst this
        intro hpk
        have hmem : p.1 ∈ rest.map Prod.fst := List.mem_map_of_mem Prod.fst hp
        rw [hpk] at hmem
        have : (rest.map Prod.fst).any (fun x => decide (k = x)) = true :=
          List.any_eq_true.mpr ⟨k, hmem, by simp⟩
        rw [this] at hnd
        cases hnd.1
    obtain ⟨cl, hout, hkeys, hseq⟩ := ih (acc ++ [(k, v')]) h₃ h₁ out hdisj' hnd.2 hrest
    refine ⟨(k, v') :: cl, ?_, ?_, CloneSeqF.cons hv hseq⟩
    · rw [hout]; simp
    · simp [hkeys]

/-- Every cloned record field compares equal to the original field:
excluded keys are skipped, the rest use the induction hypothesis of the
clone/equal round trip (passed in as IH). -/
theorem everyKeysClone {n : Nat} {h h₂ : Heap} {ex : List String}
    (IH : ∀ hh v hh' v', goodF n hh v = true → deepCopyF n hh v = some (hh', v') →
      ∀ g, HExt hh' g → ∀ ex', isObjectEqualF n g v' v ex' = some true)
    {fsFull : List (String × Val)} :
    ∀ fs cl h₀ h₁, CloneSeqF n h₀ fs cl h₁ →
      (∀ p ∈ fs, goodF n h p.2 = true) → HExt h h₀ → HExt h₁ h₂ →
      (∀ k v, (k, v) ∈ fs → recordGet fsFull k = v) →
      everyKeysWith (fun x y => isObjectEqualF n h₂ x y ex) ex cl fsFull
        = some true := by
  intro fs cl h₀ h₁ hseq
  induction hseq with
  | nil h' => intro _ _ _ _; rw [everyKeysWith]
  | @cons hh h₃ h₄ k v v' rest cl' hd hrest ihseq =>
    intro hgood hext hext₂ hget
    rw [everyKeysWith]
    by_cases hex : ex.contains k
    · rw [if_pos hex]
      exact ihseq (fun p hp => hgood p (List.mem_cons_of_mem _ hp))
        (hext.trans (deepCopyF_ext _ _ _ _ _ hd)) hext₂
        (fun k' v'' hm => hget k' v'' (List.mem_cons_of_mem _ hm))
    · rw [if_neg hex]
      have hgv : recordGet fsFull k = v := hget k v (List.mem_cons_self _ _)
      rw [hgv]
      have heq : isObjectEqualF n h₂ v' v ex = some true :=
        IH hh v h₃ v' (goodF_ext n hext (hgood (k, v) (List.mem_cons_self _ _)))
          hd h₂ (hrest.toExt.trans hext₂) ex
      rw [heq]
      simp only [Option.bind_eq_bind, Option.some_bind]
      rw [if_pos trivial]
      exact ihseq (fun p hp => hgood p (List.mem_cons_of_mem _ hp))
        (hext.trans (deepCopyF_ext _ _ _ _ _ hd)) hext₂
        (fun k' v'' hm => hget k' v'' (List.mem_cons_of_mem _ hm))

/-- Every cloned array element compares equal to the original element. -/
theorem everyEqClone {n : Nat} {h h₂ : Heap} {ex : List String}
    (IH : ∀ hh v hh' v', goodF n hh v = true → deepCopyF n hh v = some (hh', v') →
      ∀ g, HExt hh' g → ∀ ex', isObjectEqualF n g v' v ex' = some true) :
    ∀ l h₀ h₁ l', (∀ w ∈ l, goodF n h w = true) → HExt h h₀ →
      copyListWith (deepCopyF n) h₀ l = some (h₁, l') → HExt h₁ h₂ →
      everyEqWith (fun x y => isObjectEqualF n h₂ x y ex) l' l = some true := by
  intro l
  induction l with
  | nil =>
    intro h₀ h₁ l' _ _ hc _
    rw [copyListWith] at hc
    cases hc
    rw [everyEqWith]
  | cons v vs ih =>
    intro h₀ h₁ l' hgood hext hc hext₂
    obtain ⟨h₃, v', h₄, vs', hv, hrest, hr⟩ := copyListWith_cons_inv.mp hc
    injection hr with e₁ e₂
    rw [e₁] at hext₂
    rw [e₂]
    rw [everyEqWith]
    have heq : isObjectEqualF n h₂ v' v ex = some true :=
      IH h₀ v h₃ v' (goodF_ext n hext (hgood v (List.mem_cons_self _ _)))
        hv h₂ ((copyListWith_ext (deepCopyF_ext n) vs h₃ h₄ vs' hrest).trans hext₂)
        ex
    rw [heq]
    simp only [Option.bind_eq_bind, Option.some_bind]
    rw [if_pos trivial]
    exact ih h₃ h₄ vs' (fun w hw => hgood w (List.mem_cons_of_mem _ hw))
      (hext.trans (deepCopyF_ext _ _ _ _ _ hv)) hrest hext₂

/-- Cloning a set whose elements are primitives or function references
reproduces the element list exactly and leaves the heap unchanged. -/
theorem setCloneId {n : Nat} {h : Heap} :
    ∀ (l acc : List Val) (h₀ h₁ : Heap) (out : List Val),
      (∀ w ∈ l, primOrFunc h w = true) → HExt h h₀ →
      (∀ w ∈ l, acc.any (fun x => jsEq x w) = false) → jsNodup l = true →
      copySetWith (deepCopyF n) h₀ acc l = some (h₁, out) →
      h₁ = h₀ ∧ out = acc ++ l := by
  intro l
  induction l with
  | nil =>
    intro acc h₀ h₁ out _ _ _ _ hc
    rw [copySetWith] at hc
    cases hc
    exact ⟨rfl, by simp⟩
  | cons v rest ih =>
    intro acc h₀ h₁ out hpf hext hnocol hnd hc
    obtain ⟨h₃, v', hv, hrest⟩ := copySetWith_cons_inv.mp hc
    obtain ⟨e₁, e₂⟩ : h₃ = h₀ ∧ v' = v := by
      have := primOrFunc_clone hext (hpf v (List.mem_cons_self _ _)) n (h₃, v') hv
      exact ⟨congrArg Prod.fst this, congrArg Prod.snd this⟩
    rw [e₁, e₂] at hrest
    rw [setAdd_append acc v (hnocol v (List.mem_cons_self _ _))] at hrest
    simp only [jsNodup, Bool.and_eq_true, Bool.not_eq_true'] at hnd
    have hnocol' : ∀ w ∈ rest, (acc ++ [v]).any (fun x => jsEq x w) = false := by
      intro w hw
      rw [List.any_append]
      have h1 : acc.any (fun x => jsEq x w) = false :=
        hnocol w (List.mem_cons_of_mem _ hw)
      have h2 : jsEq v w = false := by
        cases hvw : jsEq v w with
        | false => rfl
        | true =>
          have : rest.any (fun x => jsEq v x) = true :=
            List.any_eq_true.mpr ⟨w, hw, hvw⟩
          rw [this] at hnd
          cases hnd.1
      simp [h1, h2, List.any_cons]
    obtain ⟨hh, hout⟩ := ih (acc ++ [v]) h₀ h₁ out
      (fun w hw => hpf w (List.mem_cons_of_mem _ hw)) hext hnocol' hnd.2 hrest
    exact ⟨hh, by rw [hout]; simp⟩

/-- Cloning a map whose values are primitives or function references
reproduces the entry list exactly and leaves the heap unchanged (keys are
never cloned). -/
theorem mapCloneId {n : Nat} {h : Heap} :
    ∀ (es acc : List (Val × Val)) (h₀ h₁ : Heap) (out : List (Val × Val)),
      (∀ e ∈ es, primOrFunc h e.2 = true) → HExt h h₀ →
      (∀ e ∈ es, ∀ q ∈ acc, jsEq e.1 q.1 = false) →
      jsNodup (es.map Prod.fst) = true →
      copyEntriesWith (deepCopyF n) h₀ acc es = some (h₁, out) →
      h₁ = h₀ ∧ out = acc ++ es := by
  intro es
  induction es with
  | nil =>
    intro acc h₀ h₁ out _ _ _ _ hc
    rw [copyEntriesWith] at hc
    cases hc
    exact ⟨rfl, by simp⟩
  | cons e rest ih =>
    obtain ⟨k, v⟩ := e
    intro acc h₀ h₁ out hpf hext hnocol hnd hc
    obtain ⟨h₃, v', hv, hrest⟩ := copyEntriesWith_cons_inv.mp hc
    obtain ⟨e₁, e₂⟩ : h₃ = h₀ ∧ v' = v := by
      have := primOrFunc_clone hext (hpf (k, v) (List.mem_cons_self _ _)) n (h₃, v') hv
      exact ⟨congrArg Prod.fst this, congrArg Prod.snd this⟩
    rw [e₁, e₂] at hrest
    rw [mapSet_append acc k v
      (fun q hq => hnocol (k, v) (List.mem_cons_self _ _) q hq)] at hrest
    simp only [List.map_cons, jsNodup, Bool.and_eq_true, Bool.not_eq_true'] at hnd
    have hnocol' : ∀ e ∈ rest, ∀ q ∈ acc ++ [(k, v)], jsEq e.1 q.1 = false := by
      intro e he q hq
      rcases List.mem_append.mp hq with hqa | hqk
      · exact hnocol e (List.mem_cons_of_mem _ he) q hqa
      · have : q = (k, v) := by simpa using hqk
        subst this
        rw [jsEq_comm]
        cases hkk : jsEq k e.1 with
        | false => rfl
        | true =>
          have hmem : e.1 ∈ rest.map Prod.fst := List.mem_map_of_mem Prod.fst he
          have : (rest.map Prod.fst).any (fun x => jsEq k x) = true :=
            List.any_eq_true.mpr ⟨e.1, hmem, hkk⟩
          rw [this] at hnd
          cases hnd.1
    obtain ⟨hh, hout⟩ := ih (acc ++ [(k, v)]) h₀ h₁ out
      (fun e he => hpf e (List.mem_cons_of_mem _ he)) hext hnocol' hnd.2 hrest
    exact ⟨hh, by rw [hout]; simp⟩

/-- The clone/equal round trip: under the well-formedness captured by goodF
(defined references, duplicate-free record keys and container invariants, and
set elements / map values that are primitives or function references), every
value successfully cloned by deepCopy compares equal to the original under
isObjectEqual, in any extension of the resulting heap, for any exclusion
list. -/
theorem cloneEqual : ∀ n h v h' v', goodF n h v = true →
    deepCopyF n h v = some (h', v') →
    ∀ h₂, HExt h' h₂ → ∀ ex, isObjectEqualF n h₂ v' v ex = some true := by
  intro n
  induction n with
  | zero => intro h v h' v' hg; rw [goodF] at hg; cases hg
  | succ n ih =>
    intro h v h' v' hg hc h₂ hext₂ ex
    match v with
    | .prim p =>
      rw [deepCopyF] at hc
      cases hc
      cases p with
      | str s =>
        rw [isObjectEqualF, if_pos rfl]
        show some (decide (s = s)) = some true
        simp
      | num x =>
        rw [isObjectEqualF, if_pos rfl]
        show some (decide (x = x)) = some true
        simp
      | bool b =>
        rw [isObjectEqualF, if_pos rfl]
        show some (decide (b = b)) = some true
        simp
      | null => simp [isObjectEqualF]
      | undefVal => simp [isObjectEqualF]
    | .ref a =>
      rw [deepCopyF] at hc
      rw [goodF] at hg
      cases hl : hlookup h a with
      | none => rw [hl] at hg; cases hg
      | some o =>
        rw [hl] at hc hg
        cases o with
        | arr l =>
          simp only [List.all_eq_true] at hg
          simp only [Option.bind_eq_bind, Option.bind_eq_some, Option.pure_def,
            Option.some.injEq, Prod.mk.injEq, Prod.exists] at hc
          obtain ⟨h₁, l', hcl, hre⟩ := hc
          have hext' : HExt (allocA h₁ (.arr l')).1 h₂ := hre.1 ▸ hext₂
          have hextH1 : HExt h h₁ :=
            copyListWith_ext (deepCopyF_ext n) l h h₁ l' hcl
          have hext₁₂ : HExt h₁ h₂ := (HExt.alloc h₁ _).trans hext'
          have hca : hlookup h₂ a = some (.arr l) :=
            hext₁₂ a _ (hextH1 a _ hl)
          have hcc : hlookup h₂ (allocA h₁ (.arr l')).2 = some (.arr l') :=
            hext' _ _ (allocA_lookup_self h₁ (.arr l'))
          rw [← hre.2]
          rw [isObjectEqualF]
          rw [if_pos (by simp [typeofVal, hcc, hca])]
          simp only [hcc, hca]
          rw [if_pos (copyListWith_length l h h₁ l' hcl)]
          exact everyEqClone ih l h h₁ l' hg (HExt.refl h) hcl hext₁₂
        | record fs =>
          simp only [Bool.and_eq_true, List.all_eq_true] at hg
          simp only [Option.bind_eq_bind, Option.bind_eq_some, Option.pure_def,
            Option.some.injEq, Prod.mk.injEq, Prod.exists] at hc
          obtain ⟨h₁, out, hcf, hre⟩ := hc
          obtain ⟨cl, hout, hkeys, hseq⟩ :=
            fieldsCloneSpec fs [] h h₁ out (fun p _ q hq => absurd hq (List.not_mem_nil q))
              hg.1 hcf
          rw [List.nil_append] at hout
          rw [hout] at hre
          have hext' : HExt (allocA h₁ (.record cl)).1 h₂ := hre.1 ▸ hext₂
          have hext₁₂ : HExt h₁ h₂ := (HExt.alloc h₁ _).trans hext'
          have hca : hlookup h₂ a = some (.record fs) :=
            hext₁₂ a _ (hseq.toExt a _ hl)
          have hcc : hlookup h₂ (allocA h₁ (.record cl)).2 = some (.record cl) :=
            hext' _ _ (allocA_lookup_self h₁ (.record cl))
          have hlen : cl.length = fs.length := by
            have := congrArg List.length hkeys
            simpa using this
          rw [← hre.2]
          rw [isObjectEqualF]
          rw [if_pos (by simp [typeofVal, hcc, hca])]
          simp only [hcc, hca]
          rw [if_pos hlen]
          exact everyKeysClone ih fs cl h h₁ hseq hg.2 (HExt.refl h) hext₁₂
            (fun k vv hm => recordGet_of_nodup fs k vv hg.1 hm)
        | set l =>
          simp only [Bool.and_eq_true, List.all_eq_true] at hg
          simp only [Option.bind_eq_bind, Option.bind_eq_some, Option.pure_def,
            Option.some.injEq, Prod.mk.injEq, Prod.exists] at hc
          obtain ⟨h₁, out, hcs, hre⟩ := hc
          obtain ⟨hh, hout⟩ := setCloneId l [] h h₁ out hg.2 (HExt.refl h)
            (fun w _ => rfl) hg.1 hcs
          rw [List.nil_append] at hout
          rw [hh, hout] at hre
          have hext' : HExt (allocA h (.set l)).1 h₂ := hre.1 ▸ hext₂
          have hca : hlookup h₂ a = some (.set l) :=
            hext' a _ (allocA_lookup_preserve hl _)
          have hcc : hlookup h₂ (allocA h (.set l)).2 = some (.set l) :=
            hext' _ _ (allocA_lookup_self h (.set l))
          rw [← hre.2]
          rw [isObjectEqualF]
          rw [if_pos (by simp [typeofVal, hcc, hca])]
          simp only [hcc, hca]
          rw [if_pos trivial]
          rw [entriesLoop_refl]
        | map es =>
          simp only [Bool.and_eq_true, List.all_eq_true] at hg
          simp only [Option.bind_eq_bind, Option.bind_eq_some, Option.pure_def,
            Option.some.injEq, Prod.mk.injEq, Prod.exists] at hc
          obtain ⟨h₁, out, hce, hre⟩ := hc
          obtain ⟨hh, hout⟩ := mapCloneId es [] h h₁ out hg.2 (HExt.refl h)
            (fun e _ q hq => absurd hq (List.not_mem_nil q)) hg.1 hce
          rw [List.nil_append] at hout
          rw [hh, hout] at hre
          have hext' : HExt (allocA h (.map es)).1 h₂ := hre.1 ▸ hext₂
          have hca : hlookup h₂ a = some (.map es) :=
            hext' a _ (allocA_lookup_preserve hl _)
          have hcc : hlookup h₂ (allocA h (.map es)).2 = some (.map es) :=
            hext' _ _ (allocA_lookup_self h (.map es))
          rw [← hre.2]
          rw [isObjectEqualF]
          rw [if_pos (by simp [typeofVal, hcc, hca])]
          simp only [hcc, hca]
          rw [if_pos trivial]
          rw [entriesLoop_refl]
        | date t =>
          cases hc
          have hca : hlookup h₂ a = some (.date t) :=
            hext₂ a _ (allocA_lookup_preserve hl _)
          have hcc : hlookup h₂ (maxAddr h + 1) = some (.date t) :=
            hext₂ _ _ (allocA_lookup_self h (.date t))
          rw [isObjectEqualF]
          rw [if_pos (by simp [typeofVal, hcc, hca])]
          simp only [hcc, hca]
          simp
        | regexp s =>
          cases hc
          have hca : hlookup h₂ a = some (.regexp s) :=
            hext₂ a _ (allocA_lookup_preserve hl _)
          have hcc : hlookup h₂ (maxAddr h + 1) = some (.regexp s) :=
            hext₂ _ _ (allocA_lookup_self h (.regexp s))
          rw [isObjectEqualF]
          rw [if_pos (by simp [typeofVal, hcc, hca])]
          simp only [hcc, hca]
          simp
        | func i =>
          cases hc
          have haa : hlookup h₂ a = some (.func i) := hext₂ a _ hl
          rw [isObjectEqualF, if_pos rfl]
          simp only [haa]
          simp
        | other fs =>
          cases hc
          have haa : hlookup h₂ a = some (.other fs) := hext₂ a _ hl
          rw [isObjectEqualF, if_pos rfl]
          simp only [haa]

/-- C2, counterexample.  For a set containing a composite element (the record
\x7ba:1\x7d), deepCopy produces a distinct set whose element is a fresh record; the
set branch of isObjectEqual compares entries with `!==`, so
equal(clone(x), x) is false even though clone(x) !== x holds. -/
theorem C2_set_of_records_cex :
    deepCopyF 3 hSetRec (.ref 1) =
      some ([(0, .record [("a", .prim (.num 1))]), (1, .set [.ref 0]),
             (2, .record [("a", .prim (.num 1))]), (3, .set [.ref 2])], .ref 3)
    ∧ isObjectEqualF 3
        [(0, .record [("a", .prim (.num 1))]), (1, .set [.ref 0]),
         (2, .record [("a", .prim (.num 1))]), (3, .set [.ref 2])]
        (.ref 3) (.ref 1) ["key"] = some false
    ∧ jsEq (.ref 3) (.ref 1) = false := by
  refine ⟨rfl, rfl, rfl⟩

/-- C2, amended.  For every value classified as array, record, date, regex,
set or map, well-formed in the sense of goodF (defined references,
duplicate-free record keys, container representation invariants, and set
elements / map values restricted to primitives or function references — the
restriction forced by the `!==` entry comparison of isObjectEqual), a
successful deepCopy yields a clone that is a distinct instance
(clone !== original) and yet compares equal to the original under
isObjectEqual for any exclusion list. -/
theorem C2_clone_equal_amended :
    ∀ n h a o h' v', hlookup h a = some o → isComposite o = true →
      goodF n h (.ref a) = true → deepCopyF n h (.ref a) = some (h', v') →
      jsEq v' (.ref a) = false
      ∧ ∀ ex, isObjectEqualF n h' v' (.ref a) ex = some true := by
  intro n h a o h' v' hl hcomp hg hc
  refine ⟨?_, fun ex => cloneEqual n h (.ref a) h' v' hg hc h' (HExt.refl h') ex⟩
  cases n with
  | zero => rw [deepCopyF] at hc; cases hc
  | succ n =>
    rw [deepCopyF, hl] at hc
    cases o with
    | arr l =>
      simp only [Option.bind_eq_bind, Option.bind_eq_some, Option.pure_def,
        Option.some.injEq, Prod.mk.injEq, Prod.exists] at hc
      obtain ⟨h₁, l', hcl, hre⟩ := hc
      rw [← hre.2]
      simp only [jsEq, decide_eq_false_iff_not]
      exact allocA_fresh_ne (copyListWith_ext (deepCopyF_ext n) l h h₁ l' hcl a _ hl) _
    | record fs =>
      simp only [Option.bind_eq_bind, Option.bind_eq_some, Option.pure_def,
        Option.some.injEq, Prod.mk.injEq, Prod.exists] at hc
      obtain ⟨h₁, out, hcf, hre⟩ := hc
      rw [← hre.2]
      simp only [jsEq, decide_eq_false_iff_not]
      exact allocA_fresh_ne
        (copyFieldsWith_ext (deepCopyF_ext n) fs [] h h₁ out hcf a _ hl) _
    | map es =>
      simp only [Option.bind_eq_bind, Option.bind_eq_some, Option.pure_def,
        Option.some.injEq, Prod.mk.injEq, Prod.exists] at hc
      obtain ⟨h₁, out, hce, hre⟩ := hc
      rw [← hre.2]
      simp only [jsEq, decide_eq_false_iff_not]
      exact allocA_fresh_ne
        (copyEntriesWith_ext (deepCopyF_ext n) es [] h h₁ out hce a _ hl) _
    | set l =>
      simp only [Option.bind_eq_bind, Option.bind_eq_some, Option.pure_def,
        Option.some.injEq, Prod.mk.injEq, Prod.exists] at hc
      obtain ⟨h₁, out, hcs, hre⟩ := hc
      rw [← hre.2]
      simp only [jsEq, decide_eq_false_iff_not]
      exact allocA_fresh_ne
        (copySetWith_ext (deepCopyF_ext n) l [] h h₁ out hcs a _ hl) _
    | date t =>
      cases hc
      simp only [jsEq, decide_eq_false_iff_not]
      exact allocA_fresh_ne hl (Obj.date t)
    | regexp s =>
      cases hc
      simp only [jsEq, decide_eq_false_iff_not]
      exact allocA_fresh_ne hl (Obj.regexp s)
    | func i => cases hcomp
    | other fs => cases hcomp

/-- C2, witness: cloning the one-element number array at address 0 yields the
fresh array at address 1, which is reference-distinct yet structurally
equal. -/
theorem C2_clone_equal_amended_witness :
    jsEq (.ref 1) (.ref 0) = false
    ∧ ∀ ex, isObjectEqualF 2
        [(0, Obj.arr [Val.prim (.num 1)]), (1, Obj.arr [Val.prim (.num 1)])]
        (.ref 1) (.ref 0) ex = some true :=
  C2_clone_equal_amended 2 [(0, .arr [.prim (.num 1)])] 0 (.arr [.prim (.num 1)])
    [(0, .arr [.prim (.num 1)]), (1, .arr [.prim (.num 1)])] (.ref 1)
    rfl rfl (by decide) rfl
